import Mathlib

/-!
# SimpleVector

A shallow embedding of `simple_vector.h` (class template `SimpleVector<Type>`)
and the properties of its operations.

Modelling conventions.

* A buffer (`ArrayPtr<Type>`) is the list of its slots; the length of the list
  is the number of slots that were allocated.  Every access `simple_vector_[i]`
  or `temp[i]` made by the code is checked against that length: an access
  outside the allocated slots is undefined behaviour in C++ and is the outcome
  `Outcome.undefined` here.
* A member function is a function from the object state to an `Outcome`: a
  normal return with the new state, a thrown `std::out_of_range` with the state
  at the throw, a failed `assert`, or undefined behaviour.
* Iterators are raw pointers into the buffer; a position is its offset from
  `begin()`, an integer (it may lie before `begin()`).
* `size_t` values are natural numbers.  Every product the code forms is at
  most twice the slot count of a buffer it has allocated, so no `size_t`
  computation wraps for buffers that fit in memory; allocations are taken to
  succeed (the code does not handle their failure).
* `std::move` of an element is an assignment that leaves the value of the
  source slot in place, as it does for `int` and every trivially copyable `Type`.
-/

namespace SimpleVectorSpec

/-- Modelled from the spec: the raw buffer `ArrayPtr<Type>` declared in
array_ptr.h, which is not among the sources.  The spec gives it a fixed number
of slots, unchecked indexed access, an O(1) ownership swap and no copy.  A
buffer is the list of its slots. -/
abbrev ArrayPtr (α : Type) := List α

/-- Modelled from the spec: `ArrayPtr<Type> temp(n)` owns `n` default-valued
slots; `n = 0` allocates nothing. -/
def ArrayPtr.create {α : Type} [Inhabited α] (n : Nat) : ArrayPtr α :=
  List.replicate n default

/-- Reading `buffer[i]`; `none` is an access outside the allocated slots. -/
def ArrayPtr.read {α : Type} (b : ArrayPtr α) (i : Nat) : Option α :=
  b[i]?

/-- Writing `buffer[i] = x`; `none` is an access outside the allocated slots. -/
def ArrayPtr.write {α : Type} (b : ArrayPtr α) (i : Nat) (x : α) : Option (ArrayPtr α) :=
  if i < b.length then some (b.set i x) else none

/-- Result of running a member function on a state of type `σ`. -/
inductive Outcome (σ β : Type) where
  /-- normal return of `ret`, leaving the state `st` -/
  | ok (ret : β) (st : σ)
  /-- thrown `std::out_of_range`; `st` is the state at the throw -/
  | out_of_range (st : σ)
  /-- an `assert` failed -/
  | assert_failed
  /-- undefined behaviour: a slot outside the buffer was accessed, or an
  iterator range was not a valid range -/
  | undefined
  deriving DecidableEq, Repr

/-- Lifts the result of the buffer work of a member function. -/
def Outcome.ofOption {σ β : Type} (o : Option σ) (ret : β) : Outcome σ β :=
  match o with
  | some st => Outcome.ok ret st
  | none => Outcome.undefined

/-- Order in which a compiler evaluates the arguments of one call; C++ leaves
it unspecified. -/
inductive ArgOrder where
  | leftToRight
  | rightToLeft
  deriving DecidableEq, Repr

/-- The private members of `SimpleVector<Type>`. -/
structure SimpleVector (α : Type) where
  simple_vector_ : ArrayPtr α
  size_ : Nat
  capacity_ : Nat
  deriving DecidableEq, Repr

/-! ## The standard algorithms the class calls -/

/-- The loop of `std::copy(first, last, d_first)` and of
`std::move(first, last, d_first)` from one buffer into another:
`n` times `*d_first++ = *first++`. -/
def copyLoop {α : Type} (src : ArrayPtr α) (first : Nat) (dst : ArrayPtr α) (d_first : Nat) :
    Nat → Option (ArrayPtr α)
  | 0 => some dst
  | n + 1 => do
    let x ← ArrayPtr.read src first
    let dst' ← ArrayPtr.write dst d_first x
    copyLoop src (first + 1) dst' (d_first + 1) n

/-- Call `std::copy(&src[first], &src[last], &dst[d_first])`; `[first, last)` must
be a valid range. -/
def std_copy {α : Type} (src : ArrayPtr α) (first last : Nat) (dst : ArrayPtr α) (d_first : Nat) :
    Option (ArrayPtr α) :=
  if last < first then none else copyLoop src first dst d_first (last - first)

/-- The loop of `std::move(first, last, d_first)` inside one buffer. -/
def moveWithinLoop {α : Type} (b : ArrayPtr α) (first d_first : Nat) : Nat → Option (ArrayPtr α)
  | 0 => some b
  | n + 1 => do
    let x ← ArrayPtr.read b first
    let b' ← ArrayPtr.write b d_first x
    moveWithinLoop b' (first + 1) (d_first + 1) n

/-- Call `std::move(&b[first], &b[last], &b[d_first])`; `[first, last)` must be a
valid range. -/
def std_move_within {α : Type} (b : ArrayPtr α) (first last d_first : Nat) : Option (ArrayPtr α) :=
  if last < first then none else moveWithinLoop b first d_first (last - first)

/-- The loop of `std::copy_backward(first, last, d_last)` from one buffer into
another: `n` times `*(--d_last) = *(--last)`. -/
def copyBackwardLoop {α : Type} (src : ArrayPtr α) (last : Nat) (dst : ArrayPtr α) (d_last : Nat) :
    Nat → Option (ArrayPtr α)
  | 0 => some dst
  | n + 1 => do
    let x ← ArrayPtr.read src (last - 1)
    let dst' ← ArrayPtr.write dst (d_last - 1) x
    copyBackwardLoop src (last - 1) dst' (d_last - 1) n

/-- Call `std::copy_backward(&src[first], &src[last], &dst[d_last])`. -/
def std_copy_backward {α : Type} (src : ArrayPtr α) (first last : Nat) (dst : ArrayPtr α)
    (d_last : Nat) : Option (ArrayPtr α) :=
  if last < first then none else copyBackwardLoop src last dst d_last (last - first)

/-- The loop of `std::copy_backward(first, last, d_last)` inside one buffer. -/
def copyBackwardWithinLoop {α : Type} (b : ArrayPtr α) (last d_last : Nat) :
    Nat → Option (ArrayPtr α)
  | 0 => some b
  | n + 1 => do
    let x ← ArrayPtr.read b (last - 1)
    let b' ← ArrayPtr.write b (d_last - 1) x
    copyBackwardWithinLoop b' (last - 1) (d_last - 1) n

/-- Call `std::copy_backward(&b[first], &b[last], &b[d_last])`. -/
def std_copy_backward_within {α : Type} (b : ArrayPtr α) (first last d_last : Nat) :
    Option (ArrayPtr α) :=
  if last < first then none else copyBackwardWithinLoop b last d_last (last - first)

/-- The loop of `std::fill(first, last, value)`: `n` times `*first++ = value`. -/
def fillLoop {α : Type} (b : ArrayPtr α) (first : Nat) (value : α) : Nat → Option (ArrayPtr α)
  | 0 => some b
  | n + 1 => do
    let b' ← ArrayPtr.write b first value
    fillLoop b' (first + 1) value n

/-- Call `std::fill(&b[first], &b[last], value)`. -/
def std_fill {α : Type} (b : ArrayPtr α) (first last : Nat) (value : α) : Option (ArrayPtr α) :=
  if last < first then none else fillLoop b first value (last - first)

/-! ## Constructors -/

/-- Constructor `SimpleVector() noexcept = default`: the member initialisers give an empty
buffer, size 0 and capacity 0. -/
def SimpleVector.default_ctor {α : Type} : SimpleVector α :=
  { simple_vector_ := [], size_ := 0, capacity_ := 0 }

/-- Constructor `SimpleVector(size_t size, const Type& value)`. -/
def SimpleVector.ctor_fill {α : Type} [Inhabited α] (size : Nat) (value : α) :
    Outcome (SimpleVector α) Unit :=
  Outcome.ofOption
    (do
      let b ← std_fill (ArrayPtr.create size) 0 size value
      pure { simple_vector_ := b, size_ := size, capacity_ := size })
    ()

/-- Constructor `explicit SimpleVector(size_t size)`, which delegates with `Type{}`. -/
def SimpleVector.ctor_size {α : Type} [Inhabited α] (size : Nat) : Outcome (SimpleVector α) Unit :=
  SimpleVector.ctor_fill size default

/-- Constructor `SimpleVector(std::initializer_list<Type> init)`. -/
def SimpleVector.ctor_init {α : Type} [Inhabited α] (init : List α) :
    Outcome (SimpleVector α) Unit :=
  Outcome.ofOption
    (do
      let b ← std_copy init 0 init.length (ArrayPtr.create init.length) 0
      pure { simple_vector_ := b, size_ := init.length, capacity_ := init.length })
    ()

/-! ## Accessors -/

/-- Member `GetSize()`. -/
def SimpleVector.GetSize {α : Type} (v : SimpleVector α) : Nat := v.size_

/-- Member `GetCapacity()`. -/
def SimpleVector.GetCapacity {α : Type} (v : SimpleVector α) : Nat := v.capacity_

/-- Member `IsEmpty()`: `!size_`. -/
def SimpleVector.IsEmpty {α : Type} (v : SimpleVector α) : Bool := v.size_ == 0

/-- Members `begin()` and `cbegin()`: the address of slot 0, offset 0. -/
def SimpleVector.cbegin {α : Type} (_v : SimpleVector α) : Int := 0

/-- Members `end()` and `cend()`: the address of slot `size_`. -/
def SimpleVector.cend {α : Type} (v : SimpleVector α) : Int := v.size_

/-- Member `operator[]`, reading: `simple_vector_[index]`, unchecked by the class. -/
def SimpleVector.index {α : Type} (v : SimpleVector α) (index : Nat) :
    Outcome (SimpleVector α) α :=
  match ArrayPtr.read v.simple_vector_ index with
  | some x => Outcome.ok x v
  | none => Outcome.undefined

/-- Member `At(index)`, reading. -/
def SimpleVector.At {α : Type} (v : SimpleVector α) (index : Nat) : Outcome (SimpleVector α) α :=
  if index ≥ v.size_ then Outcome.out_of_range v
  else
    match ArrayPtr.read v.simple_vector_ index with
    | some x => Outcome.ok x v
    | none => Outcome.undefined

/-- An assignment through the reference `operator[]` returns: `v[index] = x`. -/
def SimpleVector.index_assign {α : Type} (v : SimpleVector α) (index : Nat) (x : α) :
    Outcome (SimpleVector α) Unit :=
  Outcome.ofOption
    (do
      let b ← ArrayPtr.write v.simple_vector_ index x
      pure { v with simple_vector_ := b })
    ()

/-- An assignment through the reference `At` returns: `v.At(index) = x`. -/
def SimpleVector.At_assign {α : Type} (v : SimpleVector α) (index : Nat) (x : α) :
    Outcome (SimpleVector α) Unit :=
  if index ≥ v.size_ then Outcome.out_of_range v
  else SimpleVector.index_assign v index x

/-! ## Size and capacity -/

/-- Member `Clear()`. -/
def SimpleVector.Clear {α : Type} (v : SimpleVector α) : SimpleVector α :=
  { v with size_ := 0 }

/-- The loop of `Resize`,
`for (auto iter = begin() + new_size; iter != end(); --iter) *iter = Type{}`,
run for `n` iterations from slot `i`. -/
def resizeLoop {α : Type} [Inhabited α] (b : ArrayPtr α) (i : Nat) : Nat → Option (ArrayPtr α)
  | 0 => some b
  | n + 1 => do
    let b' ← ArrayPtr.write b i default
    resizeLoop b' (i - 1) n

/-- Member `Resize(new_size)`.  In the middle branch `size_ < new_size`, so the
iterator walks down from slot `new_size` and reaches `end()` after
`new_size - size_` steps. -/
def SimpleVector.Resize {α : Type} [Inhabited α] (v : SimpleVector α) (new_size : Nat) :
    Outcome (SimpleVector α) Unit :=
  if new_size ≤ v.size_ then
    Outcome.ok () { v with size_ := new_size }
  else if new_size < v.capacity_ then
    Outcome.ofOption
      (do
        let b ← resizeLoop v.simple_vector_ new_size (new_size - v.size_)
        pure { v with simple_vector_ := b, size_ := new_size })
      ()
  else
    Outcome.ofOption
      (do
        let temp ← std_copy v.simple_vector_ 0 v.size_ (ArrayPtr.create new_size) 0
        pure { simple_vector_ := temp, size_ := new_size, capacity_ := new_size * 2 })
      ()

/-- Member `Reserve(new_capacity)`. -/
def SimpleVector.Reserve {α : Type} [Inhabited α] (v : SimpleVector α) (new_capacity : Nat) :
    Outcome (SimpleVector α) Unit :=
  if new_capacity > v.capacity_ then
    Outcome.ofOption
      (do
        let temp ← std_copy v.simple_vector_ 0 v.size_ (ArrayPtr.create new_capacity) 0
        pure { v with simple_vector_ := temp, capacity_ := new_capacity })
      ()
  else Outcome.ok () v

/-- Constructor `SimpleVector(ReserveProxyObj capacity_to_reserve)`: `Reserve` on the
default-initialised members. -/
def SimpleVector.ctor_reserve {α : Type} [Inhabited α] (capacity_to_reserve : Nat) :
    Outcome (SimpleVector α) Unit :=
  SimpleVector.Reserve SimpleVector.default_ctor capacity_to_reserve

/-! ## Copy, move, swap -/

/-- Copy constructor `SimpleVector(const SimpleVector& other)`. -/
def SimpleVector.ctor_copy {α : Type} [Inhabited α] (other : SimpleVector α) :
    Outcome (SimpleVector α) Unit :=
  Outcome.ofOption
    (do
      let temp ← std_copy other.simple_vector_ 0 other.size_ (ArrayPtr.create other.size_) 0
      pure { simple_vector_ := temp, size_ := other.size_, capacity_ := other.capacity_ })
    ()

/-- Member `swap(other)`: the pair is `(*this, other)` after the call. -/
def SimpleVector.swap {α : Type} (v other : SimpleVector α) : SimpleVector α × SimpleVector α :=
  (other, v)

/-- Copy assignment `operator=(const SimpleVector& rhs)` for `this != &rhs`: a copy of `rhs`
is swapped in and the old contents are destroyed with the temporary.  (Self
assignment returns at once and changes nothing.) -/
def SimpleVector.assign {α : Type} [Inhabited α] (v rhs : SimpleVector α) :
    Outcome (SimpleVector α) Unit :=
  match SimpleVector.ctor_copy rhs with
  | Outcome.ok _ temp => Outcome.ok () (SimpleVector.swap v temp).1
  | Outcome.out_of_range _ => Outcome.out_of_range v
  | Outcome.assert_failed => Outcome.assert_failed
  | Outcome.undefined => Outcome.undefined

/-- Move constructor `SimpleVector(SimpleVector&& other)`: the pair is the new vector and
`other` after the call.  The new vector first allocates `other.size_` slots,
takes the size and capacity of `other`, swaps buffers, and `other.Clear()` runs. -/
def SimpleVector.ctor_move {α : Type} [Inhabited α] (other : SimpleVector α) :
    SimpleVector α × SimpleVector α :=
  let fresh : ArrayPtr α := ArrayPtr.create other.size_
  ({ simple_vector_ := other.simple_vector_, size_ := other.size_, capacity_ := other.capacity_ },
   SimpleVector.Clear { other with simple_vector_ := fresh })

/-! ## Adding and removing elements -/

/-- Member `PushBack(const Type& item)`. -/
def SimpleVector.PushBack {α : Type} [Inhabited α] (v : SimpleVector α) (item : α) :
    Outcome (SimpleVector α) Unit :=
  if v.capacity_ > v.size_ then
    Outcome.ofOption
      (do
        let b ← ArrayPtr.write v.simple_vector_ v.size_ item
        pure { v with simple_vector_ := b, size_ := v.size_ + 1 })
      ()
  else if v.capacity_ ≠ 0 then
    Outcome.ofOption
      (do
        let temp ← std_copy v.simple_vector_ 0 v.size_ (ArrayPtr.create (v.capacity_ * 2)) 0
        let b ← ArrayPtr.write temp v.size_ item
        pure { simple_vector_ := b, size_ := v.size_ + 1, capacity_ := v.capacity_ * 2 })
      ()
  else
    Outcome.ofOption
      (do
        let temp ← std_copy v.simple_vector_ 0 v.size_ (ArrayPtr.create (v.capacity_ + 1)) 0
        let b ← ArrayPtr.write temp v.size_ item
        pure { simple_vector_ := b, size_ := v.size_ + 1, capacity_ := v.capacity_ + 1 })
      ()

/-- Member `PushBack(Type&& item)`: the same three branches with `std::move` in place
of `std::copy` and of the assignments. -/
def SimpleVector.PushBack_move {α : Type} [Inhabited α] (v : SimpleVector α) (item : α) :
    Outcome (SimpleVector α) Unit :=
  if v.capacity_ > v.size_ then
    Outcome.ofOption
      (do
        let b ← ArrayPtr.write v.simple_vector_ v.size_ item
        pure { v with simple_vector_ := b, size_ := v.size_ + 1 })
      ()
  else if v.capacity_ ≠ 0 then
    Outcome.ofOption
      (do
        let temp ← std_copy v.simple_vector_ 0 v.size_ (ArrayPtr.create (v.capacity_ * 2)) 0
        let b ← ArrayPtr.write temp v.size_ item
        pure { simple_vector_ := b, size_ := v.size_ + 1, capacity_ := v.capacity_ * 2 })
      ()
  else
    Outcome.ofOption
      (do
        let temp ← std_copy v.simple_vector_ 0 v.size_ (ArrayPtr.create (v.capacity_ + 1)) 0
        let b ← ArrayPtr.write temp v.size_ item
        pure { simple_vector_ := b, size_ := v.size_ + 1, capacity_ := v.capacity_ + 1 })
      ()

/-- The loop of the copying `Insert`,
`for (size_t i = size_; i > index; --i) simple_vector_[i] = simple_vector_[i-1]`,
run for `n` iterations from `i`. -/
def shiftLoop {α : Type} (b : ArrayPtr α) (i : Nat) : Nat → Option (ArrayPtr α)
  | 0 => some b
  | n + 1 => do
    let x ← ArrayPtr.read b (i - 1)
    let b' ← ArrayPtr.write b i x
    shiftLoop b' (i - 1) n

/-- The reallocation the copying `Insert` makes when `size_ == capacity_`:
a buffer of `size_` slots (of one slot when `size_` is 0) replaces the old
one, and `capacity_` becomes `size_ * 2` (or 1). -/
def SimpleVector.Insert_grow {α : Type} [Inhabited α] (v : SimpleVector α) :
    Option (SimpleVector α) :=
  if v.size_ = v.capacity_ then
    if v.size_ ≠ 0 then do
      let temp ← std_copy v.simple_vector_ 0 v.size_ (ArrayPtr.create v.size_) 0
      pure { simple_vector_ := temp, size_ := v.size_, capacity_ := v.size_ * 2 }
    else do
      let temp ← std_copy v.simple_vector_ 0 v.size_ (ArrayPtr.create 1) 0
      pure { v with simple_vector_ := temp, capacity_ := 1 }
  else some v

/-- Member `Insert(ConstIterator pos, const Type& value)`; `pos` is the offset of the
iterator from `begin()`, the result the offset of the returned iterator. -/
def SimpleVector.Insert {α : Type} [Inhabited α] (v : SimpleVector α) (pos : Int) (value : α) :
    Outcome (SimpleVector α) Int :=
  if v.cbegin ≤ pos ∧ v.cend ≥ pos then
    let index := pos.toNat
    Outcome.ofOption
      (do
        let g ← SimpleVector.Insert_grow v
        let b ← shiftLoop g.simple_vector_ g.size_ (g.size_ - index)
        let b' ← ArrayPtr.write b index value
        pure { simple_vector_ := b', size_ := g.size_ + 1, capacity_ := g.capacity_ })
      (index : Int)
  else Outcome.out_of_range v

/-- Member `Insert(ConstIterator pos, Type&& value)`.  In the last branch the call
`std::copy_backward(pos, end(), &simple_vector_[++size_+1])` reads `size_` in
its second argument and increments it in its third; `ord` is the order in
which the two are evaluated. -/
def SimpleVector.Insert_move {α : Type} [Inhabited α] (ord : ArgOrder) (v : SimpleVector α)
    (pos : Int) (value : α) : Outcome (SimpleVector α) Int :=
  if v.cbegin ≤ pos ∧ v.cend ≥ pos then
    if v.capacity_ = 0 then
      Outcome.ofOption
        (do
          let temp ← std_copy v.simple_vector_ 0 v.size_ (ArrayPtr.create (v.capacity_ + 1)) 0
          let b ← ArrayPtr.write temp v.size_ value
          pure { simple_vector_ := b, size_ := v.size_ + 1, capacity_ := v.capacity_ + 1 })
        0
    else if v.capacity_ ≤ v.size_ then
      let index := pos.toNat
      Outcome.ofOption
        (do
          let temp ← std_copy v.simple_vector_ 0 v.size_ (ArrayPtr.create (v.capacity_ * 2)) 0
          let temp' ← std_copy_backward v.simple_vector_ index v.size_ temp (v.size_ + 1)
          let temp'' ← ArrayPtr.write temp' index value
          pure { simple_vector_ := temp'', size_ := v.size_ + 1, capacity_ := v.capacity_ * 2 })
        (index : Int)
    else
      let first := pos.toNat
      let last := match ord with
        | ArgOrder.leftToRight => v.size_
        | ArgOrder.rightToLeft => v.size_ + 1
      let d_last := v.size_ + 1 + 1
      Outcome.ofOption
        (do
          let b ← std_copy_backward_within v.simple_vector_ first last d_last
          let b' ← ArrayPtr.write b first value
          pure { v with simple_vector_ := b', size_ := v.size_ + 1 })
        pos
  else Outcome.out_of_range v

/-- Member `PopBack()`. -/
def SimpleVector.PopBack {α : Type} (v : SimpleVector α) : SimpleVector α :=
  if v.size_ ≠ 0 then { v with size_ := v.size_ - 1 } else v

/-- Member `Erase(ConstIterator pos)`, with the assertions compiled in.  The range
`[&simple_vector_[index + 1], end())` handed to `std::move` is not a valid
range when `pos == end()`, so `--size_` is only reached with `size_ > 0`. -/
def SimpleVector.Erase {α : Type} (v : SimpleVector α) (pos : Int) : Outcome (SimpleVector α) Int :=
  if ¬ (pos ≥ v.cbegin) then Outcome.assert_failed
  else if ¬ (pos ≤ v.cend) then Outcome.assert_failed
  else
    let index := pos.toNat
    Outcome.ofOption
      (do
        let b ← std_move_within v.simple_vector_ (index + 1) v.size_ index
        pure { v with simple_vector_ := b, size_ := v.size_ - 1 })
      pos

/-! ## Observations used to state the properties -/

/-- The live sequence: the slots in `[begin(), end())`, read through the
buffer. -/
def SimpleVector.live {α : Type} (v : SimpleVector α) : List α :=
  v.simple_vector_.take v.size_

/-- The number of slots the owned buffer was allocated with. -/
def SimpleVector.allocated {α : Type} (v : SimpleVector α) : Nat :=
  v.simple_vector_.length

/-- Calls `PushBack` for each element of a list in turn, stopping at the first call
that does not return. -/
def SimpleVector.pushAll {α : Type} [Inhabited α] (v : SimpleVector α) :
    List α → Outcome (SimpleVector α) Unit
  | [] => Outcome.ok () v
  | x :: xs =>
    match SimpleVector.PushBack v x with
    | Outcome.ok _ v' => SimpleVector.pushAll v' xs
    | Outcome.out_of_range st => Outcome.out_of_range st
    | Outcome.assert_failed => Outcome.assert_failed
    | Outcome.undefined => Outcome.undefined

/-! ## Comparisons -/

/-- The loop of `std::equal` on two ranges of the same length `n`: it returns
false at the first pair with `!(*first1 == *first2)`, true when the range is
used up. -/
def equalLoop {α : Type} [DecidableEq α] (a : ArrayPtr α) (first1 : Nat) (b : ArrayPtr α)
    (first2 : Nat) : Nat → Option Bool
  | 0 => some true
  | n + 1 => do
    let x ← ArrayPtr.read a first1
    let y ← ArrayPtr.read b first2
    if x = y then equalLoop a (first1 + 1) b (first2 + 1) n else pure false

/-- Call `std::equal(&a[first1], &a[last1], &b[first2], &b[last2])` on
random-access iterators: ranges of different length are unequal without any
element being compared. -/
def std_equal {α : Type} [DecidableEq α] (a : ArrayPtr α) (first1 last1 : Nat) (b : ArrayPtr α)
    (first2 last2 : Nat) : Option Bool :=
  if last1 < first1 ∨ last2 < first2 then none
  else if last1 - first1 ≠ last2 - first2 then some false
  else equalLoop a first1 b first2 (last1 - first1)

/-- The loop of `std::lexicographical_compare`, with `n1` and `n2` elements
left in the two ranges:
`for (; first1 != last1 && first2 != last2; ++first1, ++first2)` returns true
if `*first1 < *first2` and false if `*first2 < *first1`; behind the loop stands
`return first1 == last1 && first2 != last2`. -/
def lexicographicalLoop {α : Type} [LT α] [DecidableRel (fun x y : α => x < y)]
    (a : ArrayPtr α) (first1 : Nat) (b : ArrayPtr α) (first2 : Nat) : Nat → Nat → Option Bool
  | 0, 0 => some false
  | 0, _ + 1 => some true
  | _ + 1, 0 => some false
  | n1 + 1, n2 + 1 => do
    let x ← ArrayPtr.read a first1
    let y ← ArrayPtr.read b first2
    if x < y then pure true
    else if y < x then pure false
    else lexicographicalLoop a (first1 + 1) b (first2 + 1) n1 n2

/-- Call `std::lexicographical_compare(&a[first1], &a[last1], &b[first2], &b[last2])`. -/
def std_lexicographical_compare {α : Type} [LT α] [DecidableRel (fun x y : α => x < y)]
    (a : ArrayPtr α) (first1 last1 : Nat) (b : ArrayPtr α) (first2 last2 : Nat) : Option Bool :=
  if last1 < first1 ∨ last2 < first2 then none
  else lexicographicalLoop a first1 b first2 (last1 - first1) (last2 - first2)

/-- Free function `operator==`; `none` is undefined behaviour. -/
def SimpleVector.operator_eq {α : Type} [DecidableEq α] (lhs rhs : SimpleVector α) :
    Option Bool :=
  std_equal lhs.simple_vector_ 0 lhs.size_ rhs.simple_vector_ 0 rhs.size_

/-- Free function `operator!=`: `!(lhs == rhs)`. -/
def SimpleVector.operator_ne {α : Type} [DecidableEq α] (lhs rhs : SimpleVector α) :
    Option Bool :=
  (SimpleVector.operator_eq lhs rhs).map not

/-- Free function `operator<`; the second `return` of the source is never
reached. -/
def SimpleVector.operator_lt {α : Type} [LT α] [DecidableRel (fun x y : α => x < y)]
    (lhs rhs : SimpleVector α) : Option Bool :=
  std_lexicographical_compare lhs.simple_vector_ 0 lhs.size_ rhs.simple_vector_ 0 rhs.size_

/-- Free function `operator<=`: `lhs < rhs || lhs == rhs`. -/
def SimpleVector.operator_le {α : Type} [DecidableEq α] [LT α]
    [DecidableRel (fun x y : α => x < y)] (lhs rhs : SimpleVector α) : Option Bool := do
  let lt ← SimpleVector.operator_lt lhs rhs
  if lt then pure true else SimpleVector.operator_eq lhs rhs

/-- Free function `operator>`: `rhs < lhs`. -/
def SimpleVector.operator_gt {α : Type} [LT α] [DecidableRel (fun x y : α => x < y)]
    (lhs rhs : SimpleVector α) : Option Bool :=
  SimpleVector.operator_lt rhs lhs

/-- Free function `operator>=`: `!(lhs < rhs)`. -/
def SimpleVector.operator_ge {α : Type} [LT α] [DecidableRel (fun x y : α => x < y)]
    (lhs rhs : SimpleVector α) : Option Bool :=
  (SimpleVector.operator_lt lhs rhs).map not

/-- The comparison `std::lexicographical_compare` makes, on two lists. -/
def lexCompare {α : Type} [LT α] [DecidableRel (fun x y : α => x < y)] :
    List α → List α → Bool
  | [], [] => false
  | [], _ :: _ => true
  | _ :: _, [] => false
  | x :: xs, y :: ys => if x < y then true else if y < x then false else lexCompare xs ys

/-- The lexicographic order in the words of the specification: at the first
index where the two sequences differ the element of `xs` is the smaller one,
or `xs` is a proper beginning of `ys`. -/
def LexSmaller {α : Type} [LT α] (xs ys : List α) : Prop :=
  (∃ (k : Nat) (x y : α), xs[k]? = some x ∧ ys[k]? = some y ∧ x ≠ y ∧ x < y ∧
      ∀ i : Nat, i < k → xs[i]? = ys[i]?) ∨
    (xs.length < ys.length ∧ ∀ i : Nat, i < xs.length → xs[i]? = ys[i]?)

/-- The lexicographic order that only looks at `<`: at the first index where
one of the two elements is smaller than the other the element of `xs` is the
smaller one, or no index of `xs` holds such a pair and `xs` is the shorter
sequence. -/
def LexSmallerByOrder {α : Type} [LT α] (xs ys : List α) : Prop :=
  (∃ (k : Nat) (x y : α), xs[k]? = some x ∧ ys[k]? = some y ∧ x < y ∧
      ∀ i : Nat, i < k → ∃ u w : α, xs[i]? = some u ∧ ys[i]? = some w ∧ ¬ u < w ∧ ¬ w < u) ∨
    (xs.length < ys.length ∧
      ∀ i : Nat, i < xs.length → ∃ u w : α, xs[i]? = some u ∧ ys[i]? = some w ∧ ¬ u < w ∧ ¬ w < u)

/-- An element type whose `<` is a strict order that is not total, in the manner
of `double`: the natural numbers and one more value, `nan`, that is neither
smaller nor greater than any value. -/
inductive NanNat where
  | nan
  | num (n : Nat)
  deriving DecidableEq, Repr

/-- The comparison `x < y` of `NanNat`: numbers compare as numbers, and every
comparison with `nan` is false. -/
def NanNat.less : NanNat → NanNat → Bool
  | NanNat.num m, NanNat.num n => decide (m < n)
  | _, _ => false

instance NanNat.instLT : LT NanNat :=
  ⟨fun x y => NanNat.less x y = true⟩

instance NanNat.instDecidableLT : DecidableRel (fun x y : NanNat => x < y) :=
  fun x y => inferInstanceAs (Decidable (NanNat.less x y = true))

/-- The smallest power of two that is at least `n`, in the words of the
specification. -/
def IsSmallestPowerOfTwoAbove (c n : Nat) : Prop :=
  ∃ k, c = 2 ^ k ∧ n ≤ c ∧ ∀ j, n ≤ 2 ^ j → c ≤ 2 ^ j

/-- The states a program can bring a vector into: the result of a constructor,
and the result of every public operation that returns, run on states reached
before.  Writes through `operator[]`, `At` and the mutable iterators address a
live element; `Erase` is called with a position in `[begin(), end())`. -/
inductive Reachable {α : Type} [Inhabited α] : SimpleVector α → Prop
  | default_ctor : Reachable SimpleVector.default_ctor
  | ctor_size (size : Nat) (v : SimpleVector α) :
      SimpleVector.ctor_size size = Outcome.ok () v → Reachable v
  | ctor_fill (size : Nat) (value : α) (v : SimpleVector α) :
      SimpleVector.ctor_fill size value = Outcome.ok () v → Reachable v
  | ctor_init (init : List α) (v : SimpleVector α) :
      SimpleVector.ctor_init init = Outcome.ok () v → Reachable v
  | ctor_reserve (capacity_to_reserve : Nat) (v : SimpleVector α) :
      SimpleVector.ctor_reserve capacity_to_reserve = Outcome.ok () v → Reachable v
  | ctor_copy (other v : SimpleVector α) :
      Reachable other → SimpleVector.ctor_copy other = Outcome.ok () v → Reachable v
  | ctor_move_target (other : SimpleVector α) :
      Reachable other → Reachable (SimpleVector.ctor_move other).1
  | ctor_move_source (other : SimpleVector α) :
      Reachable other → Reachable (SimpleVector.ctor_move other).2
  | assign (v rhs v' : SimpleVector α) :
      Reachable v → Reachable rhs → SimpleVector.assign v rhs = Outcome.ok () v' → Reachable v'
  | swap_this (v other : SimpleVector α) :
      Reachable v → Reachable other → Reachable (SimpleVector.swap v other).1
  | swap_other (v other : SimpleVector α) :
      Reachable v → Reachable other → Reachable (SimpleVector.swap v other).2
  | index_assign (v : SimpleVector α) (index : Nat) (x : α) (v' : SimpleVector α) :
      Reachable v → index < v.size_ →
      SimpleVector.index_assign v index x = Outcome.ok () v' → Reachable v'
  | At_assign (v : SimpleVector α) (index : Nat) (x : α) (v' : SimpleVector α) :
      Reachable v → SimpleVector.At_assign v index x = Outcome.ok () v' → Reachable v'
  | Clear (v : SimpleVector α) : Reachable v → Reachable (SimpleVector.Clear v)
  | Resize (v : SimpleVector α) (new_size : Nat) (v' : SimpleVector α) :
      Reachable v → SimpleVector.Resize v new_size = Outcome.ok () v' → Reachable v'
  | Reserve (v : SimpleVector α) (new_capacity : Nat) (v' : SimpleVector α) :
      Reachable v → SimpleVector.Reserve v new_capacity = Outcome.ok () v' → Reachable v'
  | PushBack (v : SimpleVector α) (item : α) (v' : SimpleVector α) :
      Reachable v → SimpleVector.PushBack v item = Outcome.ok () v' → Reachable v'
  | PushBack_move (v : SimpleVector α) (item : α) (v' : SimpleVector α) :
      Reachable v → SimpleVector.PushBack_move v item = Outcome.ok () v' → Reachable v'
  | Insert (v : SimpleVector α) (pos : Int) (value : α) (ret : Int) (v' : SimpleVector α) :
      Reachable v → SimpleVector.Insert v pos value = Outcome.ok ret v' → Reachable v'
  | Insert_move (ord : ArgOrder) (v : SimpleVector α) (pos : Int) (value : α) (ret : Int)
      (v' : SimpleVector α) :
      Reachable v → SimpleVector.Insert_move ord v pos value = Outcome.ok ret v' → Reachable v'
  | PopBack (v : SimpleVector α) : Reachable v → Reachable (SimpleVector.PopBack v)
  | Erase (v : SimpleVector α) (pos : Int) (ret : Int) (v' : SimpleVector α) :
      Reachable v → v.cbegin ≤ pos → pos < v.cend →
      SimpleVector.Erase v pos = Outcome.ok ret v' → Reachable v'

/-! ## Buffer lemmas -/

theorem ofOption_eq_ok {σ β : Type} (o : Option σ) (r r' : β) (s : σ) :
    Outcome.ofOption o r = Outcome.ok r' s ↔ o = some s ∧ r = r' := by
  cases o with
  | none => simp [Outcome.ofOption]
  | some a =>
    simp only [Outcome.ofOption, Outcome.ok.injEq, Option.some.injEq]
    constructor
    · rintro ⟨h1, h2⟩; exact ⟨h2, h1⟩
    · rintro ⟨h1, h2⟩; exact ⟨h2, h1⟩

theorem write_eq_some {α : Type} (b b' : ArrayPtr α) (i : Nat) (x : α) :
    ArrayPtr.write b i x = some b' ↔ i < b.length ∧ b' = b.set i x := by
  unfold ArrayPtr.write
  split_ifs with h
  · simp only [Option.some.injEq, h, true_and]; exact eq_comm
  · simp [h]

theorem write_length {α : Type} (b b' : ArrayPtr α) (i : Nat) (x : α)
    (h : ArrayPtr.write b i x = some b') : b'.length = b.length := by
  rw [write_eq_some] at h
  rw [h.2, List.length_set]

theorem copyLoop_length {α : Type} (src : ArrayPtr α) (n : Nat) :
    ∀ (first : Nat) (dst : ArrayPtr α) (d_first : Nat) (r : ArrayPtr α),
      copyLoop src first dst d_first n = some r → r.length = dst.length := by
  induction n with
  | zero => intro first dst d_first r h; simp [copyLoop] at h; rw [← h]
  | succ n ih =>
    intro first dst d_first r h
    simp only [copyLoop, Option.bind_eq_bind, Option.bind_eq_some] at h
    obtain ⟨x, -, dst', hw, hr⟩ := h
    rw [ih _ _ _ _ hr, write_length _ _ _ _ hw]

theorem moveWithinLoop_length {α : Type} (n : Nat) :
    ∀ (b : ArrayPtr α) (first d_first : Nat) (r : ArrayPtr α),
      moveWithinLoop b first d_first n = some r → r.length = b.length := by
  induction n with
  | zero => intro b first d_first r h; simp [moveWithinLoop] at h; rw [← h]
  | succ n ih =>
    intro b first d_first r h
    simp only [moveWithinLoop, Option.bind_eq_bind, Option.bind_eq_some] at h
    obtain ⟨x, -, b', hw, hr⟩ := h
    rw [ih _ _ _ _ hr, write_length _ _ _ _ hw]

theorem copyBackwardLoop_length {α : Type} (src : ArrayPtr α) (n : Nat) :
    ∀ (last : Nat) (dst : ArrayPtr α) (d_last : Nat) (r : ArrayPtr α),
      copyBackwardLoop src last dst d_last n = some r → r.length = dst.length := by
  induction n with
  | zero => intro last dst d_last r h; simp [copyBackwardLoop] at h; rw [← h]
  | succ n ih =>
    intro last dst d_last r h
    simp only [copyBackwardLoop, Option.bind_eq_bind, Option.bind_eq_some] at h
    obtain ⟨x, -, dst', hw, hr⟩ := h
    rw [ih _ _ _ _ hr, write_length _ _ _ _ hw]

theorem copyBackwardWithinLoop_length {α : Type} (n : Nat) :
    ∀ (b : ArrayPtr α) (last d_last : Nat) (r : ArrayPtr α),
      copyBackwardWithinLoop b last d_last n = some r → r.length = b.length := by
  induction n with
  | zero => intro b last d_last r h; simp [copyBackwardWithinLoop] at h; rw [← h]
  | succ n ih =>
    intro b last d_last r h
    simp only [copyBackwardWithinLoop, Option.bind_eq_bind, Option.bind_eq_some] at h
    obtain ⟨x, -, b', hw, hr⟩ := h
    rw [ih _ _ _ _ hr, write_length _ _ _ _ hw]

theorem fillLoop_length {α : Type} (value : α) (n : Nat) :
    ∀ (b : ArrayPtr α) (first : Nat) (r : ArrayPtr α),
      fillLoop b first value n = some r → r.length = b.length := by
  induction n with
  | zero => intro b first r h; simp [fillLoop] at h; rw [← h]
  | succ n ih =>
    intro b first r h
    simp only [fillLoop, Option.bind_eq_bind, Option.bind_eq_some] at h
    obtain ⟨b', hw, hr⟩ := h
    rw [ih _ _ _ hr, write_length _ _ _ _ hw]

theorem resizeLoop_length {α : Type} [Inhabited α] (n : Nat) :
    ∀ (b : ArrayPtr α) (i : Nat) (r : ArrayPtr α),
      resizeLoop b i n = some r → r.length = b.length := by
  induction n with
  | zero => intro b i r h; simp [resizeLoop] at h; rw [← h]
  | succ n ih =>
    intro b i r h
    simp only [resizeLoop, Option.bind_eq_bind, Option.bind_eq_some] at h
    obtain ⟨b', hw, hr⟩ := h
    rw [ih _ _ _ hr, write_length _ _ _ _ hw]

theorem shiftLoop_length {α : Type} (n : Nat) :
    ∀ (b : ArrayPtr α) (i : Nat) (r : ArrayPtr α),
      shiftLoop b i n = some r → r.length = b.length := by
  induction n with
  | zero => intro b i r h; simp [shiftLoop] at h; rw [← h]
  | succ n ih =>
    intro b i r h
    simp only [shiftLoop, Option.bind_eq_bind, Option.bind_eq_some] at h
    obtain ⟨x, -, b', hw, hr⟩ := h
    rw [ih _ _ _ hr, write_length _ _ _ _ hw]

theorem std_copy_length {α : Type} (src : ArrayPtr α) (first last : Nat) (dst : ArrayPtr α)
    (d_first : Nat) (r : ArrayPtr α) (h : std_copy src first last dst d_first = some r) :
    r.length = dst.length := by
  unfold std_copy at h
  split_ifs at h
  exact copyLoop_length _ _ _ _ _ _ h

theorem create_length {α : Type} [Inhabited α] (n : Nat) :
    (ArrayPtr.create n : ArrayPtr α).length = n := by
  simp [ArrayPtr.create]

theorem PushBack_step {α : Type} [Inhabited α] (v : SimpleVector α) (item : α) (r : Unit)
    (v' : SimpleVector α) (h : SimpleVector.PushBack v item = Outcome.ok r v') :
    v'.size_ = v.size_ + 1 ∧ v.size_ < v'.simple_vector_.length ∧
      (v.size_ < v.capacity_ ∧ v'.capacity_ = v.capacity_ ∨
        v.capacity_ ≤ v.size_ ∧ v.capacity_ ≠ 0 ∧ v'.capacity_ = v.capacity_ * 2 ∨
        v.capacity_ = 0 ∧ v'.capacity_ = 1) := by
  unfold SimpleVector.PushBack at h
  split_ifs at h with h1 h2
  · simp only [ofOption_eq_ok, Option.bind_eq_bind, Option.bind_eq_some, Option.pure_def,
      Option.some.injEq] at h
    obtain ⟨⟨b, hw, rfl⟩, -⟩ := h
    have hl := write_length _ _ _ _ hw
    rw [write_eq_some] at hw
    refine ⟨rfl, ?_, Or.inl ⟨h1, rfl⟩⟩
    simp only [hl]; exact hw.1
  · simp only [ofOption_eq_ok, Option.bind_eq_bind, Option.bind_eq_some, Option.pure_def,
      Option.some.injEq] at h
    obtain ⟨⟨t, -, b, hw, rfl⟩, -⟩ := h
    have hl := write_length _ _ _ _ hw
    rw [write_eq_some] at hw
    refine ⟨rfl, ?_, Or.inr (Or.inl ⟨by omega, h2, rfl⟩)⟩
    simp only [hl]; exact hw.1
  · simp only [ofOption_eq_ok, Option.bind_eq_bind, Option.bind_eq_some, Option.pure_def,
      Option.some.injEq] at h
    obtain ⟨⟨t, -, b, hw, rfl⟩, -⟩ := h
    have hl := write_length _ _ _ _ hw
    rw [write_eq_some] at hw
    have h0 : v.capacity_ = 0 := by simpa using h2
    refine ⟨rfl, ?_, Or.inr (Or.inr ⟨h0, by simp [h0]⟩)⟩
    simp only [hl]; exact hw.1

theorem PushBack_move_eq {α : Type} [Inhabited α] (v : SimpleVector α) (item : α) :
    SimpleVector.PushBack_move v item = SimpleVector.PushBack v item := rfl

theorem shiftLoop_succ_bound {α : Type} (b : ArrayPtr α) (i n : Nat) (r : ArrayPtr α)
    (h : shiftLoop b i (n + 1) = some r) : i < b.length := by
  simp only [shiftLoop, Option.bind_eq_bind, Option.bind_eq_some] at h
  obtain ⟨x, -, b', hw, -⟩ := h
  exact ((write_eq_some _ _ _ _).1 hw).1

theorem resizeLoop_succ_bound {α : Type} [Inhabited α] (b : ArrayPtr α) (i n : Nat)
    (r : ArrayPtr α) (h : resizeLoop b i (n + 1) = some r) : i < b.length := by
  simp only [resizeLoop, Option.bind_eq_bind, Option.bind_eq_some] at h
  obtain ⟨b', hw, -⟩ := h
  exact ((write_eq_some _ _ _ _).1 hw).1

theorem copyBackwardWithinLoop_succ_bound {α : Type} (b : ArrayPtr α) (last d_last n : Nat)
    (r : ArrayPtr α) (h : copyBackwardWithinLoop b last d_last (n + 1) = some r) :
    d_last - 1 < b.length := by
  simp only [copyBackwardWithinLoop, Option.bind_eq_bind, Option.bind_eq_some] at h
  obtain ⟨x, -, b', hw, -⟩ := h
  exact ((write_eq_some _ _ _ _).1 hw).1

theorem std_fill_length {α : Type} (b : ArrayPtr α) (first last : Nat) (value : α)
    (r : ArrayPtr α) (h : std_fill b first last value = some r) : r.length = b.length := by
  unfold std_fill at h
  split_ifs at h
  exact fillLoop_length _ _ _ _ _ h

theorem std_move_within_length {α : Type} (b : ArrayPtr α) (first last d_first : Nat)
    (r : ArrayPtr α) (h : std_move_within b first last d_first = some r) :
    r.length = b.length := by
  unfold std_move_within at h
  split_ifs at h
  exact moveWithinLoop_length _ _ _ _ _ h

theorem std_copy_backward_length {α : Type} (src : ArrayPtr α) (first last : Nat)
    (dst : ArrayPtr α) (d_last : Nat) (r : ArrayPtr α)
    (h : std_copy_backward src first last dst d_last = some r) : r.length = dst.length := by
  unfold std_copy_backward at h
  split_ifs at h
  exact copyBackwardLoop_length _ _ _ _ _ _ h

theorem std_copy_backward_within_length {α : Type} (b : ArrayPtr α) (first last d_last : Nat)
    (r : ArrayPtr α) (h : std_copy_backward_within b first last d_last = some r) :
    r.length = b.length := by
  unfold std_copy_backward_within at h
  split_ifs at h
  exact copyBackwardWithinLoop_length _ _ _ _ _ h

/-! ## Every operation keeps the live elements inside the capacity and inside the buffer -/

theorem ctor_fill_bounds {α : Type} [Inhabited α] (size : Nat) (value : α) (r : Unit)
    (v : SimpleVector α) (h : SimpleVector.ctor_fill size value = Outcome.ok r v) :
    v.size_ ≤ v.capacity_ ∧ v.size_ ≤ v.simple_vector_.length := by
  unfold SimpleVector.ctor_fill at h
  simp only [ofOption_eq_ok, Option.bind_eq_bind, Option.bind_eq_some, Option.pure_def,
    Option.some.injEq] at h
  obtain ⟨⟨b, hb, rfl⟩, -⟩ := h
  have hl := std_fill_length _ _ _ _ _ hb
  rw [create_length] at hl
  exact ⟨le_refl _, by simp only [hl]; exact le_refl _⟩

theorem ctor_init_bounds {α : Type} [Inhabited α] (init : List α) (r : Unit)
    (v : SimpleVector α) (h : SimpleVector.ctor_init init = Outcome.ok r v) :
    v.size_ ≤ v.capacity_ ∧ v.size_ ≤ v.simple_vector_.length := by
  unfold SimpleVector.ctor_init at h
  simp only [ofOption_eq_ok, Option.bind_eq_bind, Option.bind_eq_some, Option.pure_def,
    Option.some.injEq] at h
  obtain ⟨⟨b, hb, rfl⟩, -⟩ := h
  have hl := std_copy_length _ _ _ _ _ _ hb
  rw [create_length] at hl
  exact ⟨le_refl _, by simp only [hl]; exact le_refl _⟩

theorem Reserve_bounds {α : Type} [Inhabited α] (v : SimpleVector α) (new_capacity : Nat)
    (r : Unit) (v' : SimpleVector α)
    (hv : v.size_ ≤ v.capacity_ ∧ v.size_ ≤ v.simple_vector_.length)
    (h : SimpleVector.Reserve v new_capacity = Outcome.ok r v') :
    v'.size_ ≤ v'.capacity_ ∧ v'.size_ ≤ v'.simple_vector_.length := by
  unfold SimpleVector.Reserve at h
  split_ifs at h with h1
  · simp only [ofOption_eq_ok, Option.bind_eq_bind, Option.bind_eq_some, Option.pure_def,
      Option.some.injEq] at h
    obtain ⟨⟨b, hb, rfl⟩, -⟩ := h
    have hl := std_copy_length _ _ _ _ _ _ hb
    rw [create_length] at hl
    refine ⟨?_, ?_⟩
    · show v.size_ ≤ new_capacity
      omega
    · show v.size_ ≤ b.length
      omega
  · simp only [Outcome.ok.injEq] at h
    rw [← h.2]; exact hv

theorem ctor_copy_bounds {α : Type} [Inhabited α] (other : SimpleVector α) (r : Unit)
    (v : SimpleVector α) (hv : other.size_ ≤ other.capacity_)
    (h : SimpleVector.ctor_copy other = Outcome.ok r v) :
    v.size_ ≤ v.capacity_ ∧ v.size_ ≤ v.simple_vector_.length := by
  unfold SimpleVector.ctor_copy at h
  simp only [ofOption_eq_ok, Option.bind_eq_bind, Option.bind_eq_some, Option.pure_def,
    Option.some.injEq] at h
  obtain ⟨⟨b, hb, rfl⟩, -⟩ := h
  have hl := std_copy_length _ _ _ _ _ _ hb
  rw [create_length] at hl
  exact ⟨hv, by simp only [hl]; exact le_refl _⟩

theorem assign_bounds {α : Type} [Inhabited α] (v rhs : SimpleVector α) (r : Unit)
    (v' : SimpleVector α) (hv : rhs.size_ ≤ rhs.capacity_)
    (h : SimpleVector.assign v rhs = Outcome.ok r v') :
    v'.size_ ≤ v'.capacity_ ∧ v'.size_ ≤ v'.simple_vector_.length := by
  unfold SimpleVector.assign at h
  split at h
  · rename_i u temp hc
    simp only [Outcome.ok.injEq, SimpleVector.swap, true_and] at h
    rw [← h]
    exact ctor_copy_bounds rhs u temp hv hc
  · exact absurd h (by simp)
  · exact absurd h (by simp)
  · exact absurd h (by simp)

theorem index_assign_bounds {α : Type} (v : SimpleVector α) (index : Nat) (x : α) (r : Unit)
    (v' : SimpleVector α) (hv : v.size_ ≤ v.capacity_ ∧ v.size_ ≤ v.simple_vector_.length)
    (h : SimpleVector.index_assign v index x = Outcome.ok r v') :
    v'.size_ ≤ v'.capacity_ ∧ v'.size_ ≤ v'.simple_vector_.length := by
  unfold SimpleVector.index_assign at h
  simp only [ofOption_eq_ok, Option.bind_eq_bind, Option.bind_eq_some, Option.pure_def,
    Option.some.injEq] at h
  obtain ⟨⟨b, hb, rfl⟩, -⟩ := h
  have hl := write_length _ _ _ _ hb
  exact ⟨hv.1, by simp only [hl]; exact hv.2⟩

theorem At_assign_bounds {α : Type} (v : SimpleVector α) (index : Nat) (x : α) (r : Unit)
    (v' : SimpleVector α) (hv : v.size_ ≤ v.capacity_ ∧ v.size_ ≤ v.simple_vector_.length)
    (h : SimpleVector.At_assign v index x = Outcome.ok r v') :
    v'.size_ ≤ v'.capacity_ ∧ v'.size_ ≤ v'.simple_vector_.length := by
  unfold SimpleVector.At_assign at h
  split_ifs at h
  exact index_assign_bounds v index x r v' hv h

theorem Resize_bounds {α : Type} [Inhabited α] (v : SimpleVector α) (new_size : Nat)
    (r : Unit) (v' : SimpleVector α)
    (hv : v.size_ ≤ v.capacity_ ∧ v.size_ ≤ v.simple_vector_.length)
    (h : SimpleVector.Resize v new_size = Outcome.ok r v') :
    v'.size_ ≤ v'.capacity_ ∧ v'.size_ ≤ v'.simple_vector_.length := by
  unfold SimpleVector.Resize at h
  split_ifs at h with h1 h2
  · simp only [Outcome.ok.injEq] at h
    rw [← h.2]
    exact ⟨le_trans h1 hv.1, le_trans h1 hv.2⟩
  · simp only [ofOption_eq_ok, Option.bind_eq_bind, Option.bind_eq_some, Option.pure_def,
      Option.some.injEq] at h
    obtain ⟨⟨b, hb, rfl⟩, -⟩ := h
    have hl := resizeLoop_length _ _ _ _ hb
    obtain ⟨n, hn⟩ : ∃ n, new_size - v.size_ = n + 1 := ⟨new_size - v.size_ - 1, by omega⟩
    rw [hn] at hb
    have hlt := resizeLoop_succ_bound _ _ _ _ hb
    refine ⟨?_, ?_⟩
    · show new_size ≤ v.capacity_
      omega
    · show new_size ≤ b.length
      omega
  · simp only [ofOption_eq_ok, Option.bind_eq_bind, Option.bind_eq_some, Option.pure_def,
      Option.some.injEq] at h
    obtain ⟨⟨b, hb, rfl⟩, -⟩ := h
    have hl := std_copy_length _ _ _ _ _ _ hb
    rw [create_length] at hl
    refine ⟨?_, ?_⟩
    · show new_size ≤ new_size * 2
      omega
    · show new_size ≤ b.length
      omega

theorem PushBack_bounds {α : Type} [Inhabited α] (v : SimpleVector α) (item : α) (r : Unit)
    (v' : SimpleVector α) (hv : v.size_ ≤ v.capacity_)
    (h : SimpleVector.PushBack v item = Outcome.ok r v') :
    v'.size_ ≤ v'.capacity_ ∧ v'.size_ ≤ v'.simple_vector_.length := by
  obtain ⟨hs, hl, hc⟩ := PushBack_step v item r v' h
  refine ⟨?_, by omega⟩
  rcases hc with ⟨h1, h2⟩ | ⟨h1, h2, h3⟩ | ⟨h1, h2⟩ <;> omega

theorem Insert_grow_bounds {α : Type} [Inhabited α] (v g : SimpleVector α)
    (hv : v.size_ ≤ v.capacity_) (h : SimpleVector.Insert_grow v = some g) :
    g.size_ = v.size_ ∧ g.size_ + 1 ≤ g.capacity_ := by
  unfold SimpleVector.Insert_grow at h
  split_ifs at h with h1 h2
  · simp only [Option.bind_eq_bind, Option.bind_eq_some, Option.pure_def,
      Option.some.injEq] at h
    obtain ⟨b, -, rfl⟩ := h
    refine ⟨rfl, ?_⟩
    show v.size_ + 1 ≤ v.size_ * 2
    omega
  · simp only [Option.bind_eq_bind, Option.bind_eq_some, Option.pure_def,
      Option.some.injEq] at h
    obtain ⟨b, -, rfl⟩ := h
    have h0 : v.size_ = 0 := by simpa using h2
    refine ⟨rfl, ?_⟩
    show v.size_ + 1 ≤ 1
    omega
  · simp only [Option.some.injEq] at h
    subst h
    exact ⟨rfl, by omega⟩

theorem Insert_bounds {α : Type} [Inhabited α] (v : SimpleVector α) (pos : Int) (value : α)
    (r : Int) (v' : SimpleVector α) (hv : v.size_ ≤ v.capacity_)
    (h : SimpleVector.Insert v pos value = Outcome.ok r v') :
    v'.size_ ≤ v'.capacity_ ∧ v'.size_ ≤ v'.simple_vector_.length := by
  unfold SimpleVector.Insert at h
  split_ifs at h with h1
  simp only [ofOption_eq_ok, Option.bind_eq_bind, Option.bind_eq_some, Option.pure_def,
    Option.some.injEq] at h
  obtain ⟨⟨g, hg, b, hb, b', hw, rfl⟩, -⟩ := h
  obtain ⟨hgs, hgc⟩ := Insert_grow_bounds v g hv hg
  refine ⟨hgc, ?_⟩
  show g.size_ + 1 ≤ b'.length
  have hl' := write_length _ _ _ _ hw
  have hl := shiftLoop_length _ _ _ _ hb
  have hlt := ((write_eq_some _ _ _ _).1 hw).1
  simp only [SimpleVector.cbegin, SimpleVector.cend] at h1
  by_cases hk : pos.toNat < g.size_
  · obtain ⟨n, hn⟩ : ∃ n, g.size_ - pos.toNat = n + 1 := ⟨g.size_ - pos.toNat - 1, by omega⟩
    rw [hn] at hb
    have := shiftLoop_succ_bound _ _ _ _ hb
    omega
  · have : pos.toNat = g.size_ := by omega
    omega

theorem Insert_move_bounds {α : Type} [Inhabited α] (ord : ArgOrder) (v : SimpleVector α)
    (pos : Int) (value : α) (r : Int) (v' : SimpleVector α) (hv : v.size_ ≤ v.capacity_)
    (h : SimpleVector.Insert_move ord v pos value = Outcome.ok r v') :
    v'.size_ ≤ v'.capacity_ ∧ v'.size_ ≤ v'.simple_vector_.length := by
  unfold SimpleVector.Insert_move at h
  split_ifs at h with h1 h2 h3
  · simp only [ofOption_eq_ok, Option.bind_eq_bind, Option.bind_eq_some, Option.pure_def,
      Option.some.injEq] at h
    obtain ⟨⟨t, -, b, hw, rfl⟩, -⟩ := h
    have hl := write_length _ _ _ _ hw
    have hlt := ((write_eq_some _ _ _ _).1 hw).1
    refine ⟨?_, ?_⟩
    · show v.size_ + 1 ≤ v.capacity_ + 1
      omega
    · show v.size_ + 1 ≤ b.length
      omega
  · simp only [ofOption_eq_ok, Option.bind_eq_bind, Option.bind_eq_some, Option.pure_def,
      Option.some.injEq] at h
    obtain ⟨⟨t, ht, t', ht', t'', hw, rfl⟩, -⟩ := h
    have hl := write_length _ _ _ _ hw
    have hl' := std_copy_backward_length _ _ _ _ _ _ ht'
    have hl'' := std_copy_length _ _ _ _ _ _ ht
    rw [create_length] at hl''
    refine ⟨?_, ?_⟩
    · show v.size_ + 1 ≤ v.capacity_ * 2
      omega
    · show v.size_ + 1 ≤ t''.length
      omega
  · simp only [ofOption_eq_ok, Option.bind_eq_bind, Option.bind_eq_some, Option.pure_def,
      Option.some.injEq] at h
    obtain ⟨⟨b, hb, b', hw, rfl⟩, -⟩ := h
    have hl := write_length _ _ _ _ hw
    have hl' := std_copy_backward_within_length _ _ _ _ _ hb
    have hlt := ((write_eq_some _ _ _ _).1 hw).1
    simp only [SimpleVector.cbegin, SimpleVector.cend] at h1
    refine ⟨?_, ?_⟩
    · show v.size_ + 1 ≤ v.capacity_
      omega
    · show v.size_ + 1 ≤ b'.length
      by_cases hk : pos.toNat < v.size_
      · unfold std_copy_backward_within at hb
        cases ord
        · simp only at hb
          split_ifs at hb with h4
          obtain ⟨n, hn⟩ : ∃ n, v.size_ - pos.toNat = n + 1 :=
            ⟨v.size_ - pos.toNat - 1, by omega⟩
          rw [hn] at hb
          have := copyBackwardWithinLoop_succ_bound _ _ _ _ _ hb
          omega
        · simp only at hb
          split_ifs at hb with h4
          obtain ⟨n, hn⟩ : ∃ n, v.size_ + 1 - pos.toNat = n + 1 :=
            ⟨v.size_ + 1 - pos.toNat - 1, by omega⟩
          rw [hn] at hb
          have := copyBackwardWithinLoop_succ_bound _ _ _ _ _ hb
          omega
      · have : pos.toNat = v.size_ := by omega
        omega

theorem Erase_bounds {α : Type} (v : SimpleVector α) (pos : Int) (r : Int)
    (v' : SimpleVector α) (hv : v.size_ ≤ v.capacity_ ∧ v.size_ ≤ v.simple_vector_.length)
    (h : SimpleVector.Erase v pos = Outcome.ok r v') :
    v'.size_ ≤ v'.capacity_ ∧ v'.size_ ≤ v'.simple_vector_.length := by
  unfold SimpleVector.Erase at h
  split_ifs at h with h1 h2
  simp only [ofOption_eq_ok, Option.bind_eq_bind, Option.bind_eq_some, Option.pure_def,
    Option.some.injEq] at h
  obtain ⟨⟨b, hb, rfl⟩, -⟩ := h
  have hl := std_move_within_length _ _ _ _ _ hb
  refine ⟨?_, ?_⟩
  · show v.size_ - 1 ≤ v.capacity_
    omega
  · show v.size_ - 1 ≤ b.length
    omega

theorem reachable_bounds {α : Type} [Inhabited α] (v : SimpleVector α) (h : Reachable v) :
    v.size_ ≤ v.capacity_ ∧ v.size_ ≤ v.simple_vector_.length := by
  induction h with
  | default_ctor => exact ⟨le_refl _, le_refl _⟩
  | ctor_size size v h => exact ctor_fill_bounds size default () v h
  | ctor_fill size value v h => exact ctor_fill_bounds size value () v h
  | ctor_init init v h => exact ctor_init_bounds init () v h
  | ctor_reserve c v h =>
    exact Reserve_bounds SimpleVector.default_ctor c () v ⟨le_refl _, le_refl _⟩ h
  | ctor_copy other v _ h ih => exact ctor_copy_bounds other () v ih.1 h
  | ctor_move_target other _ ih => exact ih
  | ctor_move_source other _ ih =>
    exact ⟨Nat.zero_le _, Nat.zero_le _⟩
  | assign v rhs v' _ _ h _ ih => exact assign_bounds v rhs () v' ih.1 h
  | swap_this v other _ _ _ ih => exact ih
  | swap_other v other _ _ ih _ => exact ih
  | index_assign v index x v' _ _ h ih => exact index_assign_bounds v index x () v' ih h
  | At_assign v index x v' _ h ih => exact At_assign_bounds v index x () v' ih h
  | Clear v _ ih => exact ⟨Nat.zero_le _, Nat.zero_le _⟩
  | Resize v n v' _ h ih => exact Resize_bounds v n () v' ih h
  | Reserve v n v' _ h ih => exact Reserve_bounds v n () v' ih h
  | PushBack v item v' _ h ih => exact PushBack_bounds v item () v' ih.1 h
  | PushBack_move v item v' _ h ih => exact PushBack_bounds v item () v' ih.1 h
  | Insert v pos value ret v' _ h ih => exact Insert_bounds v pos value ret v' ih.1 h
  | Insert_move ord v pos value ret v' _ h ih =>
    exact Insert_move_bounds ord v pos value ret v' ih.1 h
  | PopBack v _ ih =>
    unfold SimpleVector.PopBack
    split_ifs with h0
    · exact ⟨Nat.le_trans (Nat.sub_le _ _) ih.1, Nat.le_trans (Nat.sub_le _ _) ih.2⟩
    · exact ih
  | Erase v pos ret v' _ _ _ h ih => exact Erase_bounds v pos ret v' ih h

/-! ## What the copying loops compute -/

theorem read_eq_some_of_lt {α : Type} (b : ArrayPtr α) (i : Nat) (h : i < b.length) :
    ArrayPtr.read b i = some (b.get ⟨i, h⟩) := by
  unfold ArrayPtr.read
  rw [List.getElem?_eq_getElem h]
  rfl

theorem read_eq_some {α : Type} (b : ArrayPtr α) (i : Nat) (x : α) :
    ArrayPtr.read b i = some x ↔ b[i]? = some x := Iff.rfl

theorem write_of_lt {α : Type} (b : ArrayPtr α) (i : Nat) (x : α) (h : i < b.length) :
    ArrayPtr.write b i x = some (b.set i x) := by
  unfold ArrayPtr.write
  rw [if_pos h]

theorem copyLoop_spec {α : Type} (src : ArrayPtr α) (n : Nat) :
    ∀ (first : Nat) (dst : ArrayPtr α) (d_first : Nat),
      first + n ≤ src.length → d_first + n ≤ dst.length →
      ∃ r, copyLoop src first dst d_first n = some r ∧ r.length = dst.length ∧
        ∀ i, r[i]? = if d_first ≤ i ∧ i < d_first + n then src[first + (i - d_first)]?
          else dst[i]? := by
  induction n with
  | zero =>
    intro first dst d_first _ _
    refine ⟨dst, rfl, rfl, fun i => ?_⟩
    rw [if_neg (by omega)]
  | succ n ih =>
    intro first dst d_first hs hd
    have h1 : first < src.length := by omega
    have h2 : d_first < dst.length := by omega
    obtain ⟨r, hr, hlen, hget⟩ := ih (first + 1) (dst.set d_first (src.get ⟨first, h1⟩))
      (d_first + 1) (by omega) (by rw [List.length_set]; omega)
    refine ⟨r, ?_, ?_, fun i => ?_⟩
    · simp only [copyLoop, Option.bind_eq_bind, read_eq_some_of_lt src first h1,
        Option.some_bind, write_of_lt dst d_first _ h2]
      exact hr
    · rw [hlen, List.length_set]
    · rw [hget i]
      by_cases hi : d_first = i
      · subst hi
        rw [if_neg (by omega), if_pos (by omega), List.getElem?_set_self h2]
        simp only [Nat.sub_self, Nat.add_zero]
        rw [List.getElem?_eq_getElem h1]
        rfl
      · rw [List.getElem?_set_ne hi]
        by_cases hr : d_first + 1 ≤ i ∧ i < d_first + 1 + n
        · rw [if_pos hr, if_pos (by omega)]
          congr 1
          omega
        · rw [if_neg hr, if_neg (by omega)]

theorem std_copy_spec {α : Type} (src : ArrayPtr α) (n : Nat) (dst : ArrayPtr α)
    (hs : n ≤ src.length) (hd : n ≤ dst.length) :
    ∃ r, std_copy src 0 n dst 0 = some r ∧ r.length = dst.length ∧
      ∀ i, r[i]? = if i < n then src[i]? else dst[i]? := by
  obtain ⟨r, hr, hlen, hget⟩ := copyLoop_spec src n 0 dst 0 (by omega) (by omega)
  refine ⟨r, ?_, hlen, fun i => ?_⟩
  · unfold std_copy
    rw [if_neg (by omega)]
    exact hr
  · rw [hget i]
    by_cases hi : i < n
    · rw [if_pos hi, if_pos (by omega)]
      simp
    · rw [if_neg hi, if_neg (by omega)]

theorem moveWithinLoop_spec {α : Type} (n : Nat) :
    ∀ (b : ArrayPtr α) (d_first : Nat), d_first + 1 + n ≤ b.length →
      ∃ r, moveWithinLoop b (d_first + 1) d_first n = some r ∧ r.length = b.length ∧
        ∀ i, r[i]? = if d_first ≤ i ∧ i < d_first + n then b[i + 1]? else b[i]? := by
  induction n with
  | zero =>
    intro b d_first _
    refine ⟨b, rfl, rfl, fun i => ?_⟩
    rw [if_neg (by omega)]
  | succ n ih =>
    intro b d_first hb
    have h1 : d_first + 1 < b.length := by omega
    have h2 : d_first < b.length := by omega
    obtain ⟨r, hr, hlen, hget⟩ := ih (b.set d_first (b.get ⟨d_first + 1, h1⟩)) (d_first + 1)
      (by rw [List.length_set]; omega)
    refine ⟨r, ?_, ?_, fun i => ?_⟩
    · simp only [moveWithinLoop, Option.bind_eq_bind, read_eq_some_of_lt b (d_first + 1) h1,
        Option.some_bind, write_of_lt b d_first _ h2]
      exact hr
    · rw [hlen, List.length_set]
    · rw [hget i]
      by_cases hi : d_first = i
      · subst hi
        rw [if_neg (by omega), if_pos (by omega), List.getElem?_set_self h2,
          List.getElem?_eq_getElem h1]
        rfl
      · rw [List.getElem?_set_ne hi]
        by_cases hr : d_first + 1 ≤ i ∧ i < d_first + 1 + n
        · rw [if_pos hr, if_pos (by omega), List.getElem?_set_ne (by omega)]
        · rw [if_neg hr, if_neg (by omega)]

theorem take_set_succ {α : Type} (l : List α) (i : Nat) (x : α) (h : i < l.length) :
    (l.set i x).take (i + 1) = l.take i ++ [x] := by
  apply List.ext_getElem?
  intro j
  rw [List.getElem?_take, List.getElem?_append, List.getElem?_set]
  have hlen : (l.take i).length = i := by rw [List.length_take]; omega
  rw [hlen]
  by_cases h1 : j < i
  · rw [if_pos (by omega), if_neg (by omega), if_pos h1, List.getElem?_take, if_pos h1]
  · by_cases h2 : j = i
    · subst h2
      simp [h]
    · rw [if_neg (by omega), if_neg h1]
      have : 1 ≤ j - i := by omega
      rw [List.getElem?_eq_none]
      simp only [List.length_singleton]
      omega

theorem take_eq_take_of_getElem? {α : Type} (r b : List α) (n : Nat)
    (h : ∀ i, i < n → r[i]? = b[i]?) : r.take n = b.take n := by
  apply List.ext_getElem?
  intro j
  rw [List.getElem?_take, List.getElem?_take]
  by_cases hj : j < n
  · rw [if_pos hj, if_pos hj, h j hj]
  · rw [if_neg hj, if_neg hj]

/-! ## PushBack on a vector whose buffer has `capacity_` slots -/

theorem PushBack_spec {α : Type} [Inhabited α] (v : SimpleVector α) (item : α)
    (hv : v.size_ ≤ v.capacity_) (hb : v.simple_vector_.length = v.capacity_) :
    ∃ v', SimpleVector.PushBack v item = Outcome.ok () v' ∧ v'.size_ = v.size_ + 1 ∧
      v'.live = v.live ++ [item] ∧ v'.simple_vector_.length = v'.capacity_ ∧
      v'.size_ ≤ v'.capacity_ ∧
      v'.capacity_ = (if v.size_ < v.capacity_ then v.capacity_
        else if v.capacity_ ≠ 0 then v.capacity_ * 2 else 1) := by
  unfold SimpleVector.PushBack
  by_cases h1 : v.capacity_ > v.size_
  · rw [if_pos h1]
    have hlt : v.size_ < v.simple_vector_.length := by omega
    refine ⟨SimpleVector.mk (v.simple_vector_.set v.size_ item) (v.size_ + 1) v.capacity_,
      ?_, rfl, ?_, ?_, ?_, ?_⟩
    · simp only [Option.bind_eq_bind, write_of_lt _ _ _ hlt, Option.some_bind, Option.pure_def]
      rfl
    · exact take_set_succ _ _ _ hlt
    · show (v.simple_vector_.set v.size_ item).length = v.capacity_
      rw [List.length_set, hb]
    · show v.size_ + 1 ≤ v.capacity_
      omega
    · show v.capacity_ = _
      rw [if_pos h1]
  · rw [if_neg h1]
    have hsz : v.size_ = v.capacity_ := by omega
    by_cases h2 : v.capacity_ ≠ 0
    · rw [if_pos h2]
      obtain ⟨t, ht, hlen, hget⟩ := std_copy_spec v.simple_vector_ v.size_
        (ArrayPtr.create (v.capacity_ * 2)) (by omega) (by rw [create_length]; omega)
      rw [create_length] at hlen
      have hlt : v.size_ < t.length := by omega
      refine ⟨SimpleVector.mk (t.set v.size_ item) (v.size_ + 1) (v.capacity_ * 2), ?_, rfl, ?_, ?_, ?_, ?_⟩
      · simp only [Option.bind_eq_bind, ht, write_of_lt _ _ _ hlt, Option.some_bind,
          Option.pure_def]
        rfl
      · show (t.set v.size_ item).take (v.size_ + 1) = v.simple_vector_.take v.size_ ++ [item]
        rw [take_set_succ _ _ _ hlt]
        congr 1
        exact take_eq_take_of_getElem? _ _ _ (fun i hi => by rw [hget i, if_pos hi])
      · show (t.set v.size_ item).length = v.capacity_ * 2
        rw [List.length_set, hlen]
      · show v.size_ + 1 ≤ v.capacity_ * 2
        omega
      · show v.capacity_ * 2 = _
        rw [if_neg h1, if_pos h2]
    · rw [if_neg h2]
      have h0 : v.capacity_ = 0 := by simpa using h2
      obtain ⟨t, ht, hlen, hget⟩ := std_copy_spec v.simple_vector_ v.size_
        (ArrayPtr.create (v.capacity_ + 1)) (by omega) (by rw [create_length]; omega)
      rw [create_length] at hlen
      have hlt : v.size_ < t.length := by omega
      refine ⟨SimpleVector.mk (t.set v.size_ item) (v.size_ + 1) (v.capacity_ + 1), ?_, rfl, ?_, ?_, ?_, ?_⟩
      · simp only [Option.bind_eq_bind, ht, write_of_lt _ _ _ hlt, Option.some_bind,
          Option.pure_def]
        rfl
      · show (t.set v.size_ item).take (v.size_ + 1) = v.simple_vector_.take v.size_ ++ [item]
        rw [take_set_succ _ _ _ hlt]
        congr 1
        exact take_eq_take_of_getElem? _ _ _ (fun i hi => by rw [hget i, if_pos hi])
      · show (t.set v.size_ item).length = v.capacity_ + 1
        rw [List.length_set, hlen]
      · show v.size_ + 1 ≤ v.capacity_ + 1
        omega
      · show v.capacity_ + 1 = _
        rw [if_neg h1, if_neg h2, h0]

theorem pushAll_spec {α : Type} [Inhabited α] (xs : List α) :
    ∀ v : SimpleVector α, v.size_ ≤ v.capacity_ → v.simple_vector_.length = v.capacity_ →
      ∃ v', SimpleVector.pushAll v xs = Outcome.ok () v' ∧ v'.size_ = v.size_ + xs.length ∧
        v'.live = v.live ++ xs ∧ v'.simple_vector_.length = v'.capacity_ ∧
        v'.size_ ≤ v'.capacity_ := by
  induction xs with
  | nil =>
    intro v hv hb
    exact ⟨v, rfl, rfl, by simp, hb, hv⟩
  | cons x xs ih =>
    intro v hv hb
    obtain ⟨v1, h1, hs1, hl1, hb1, hv1, -⟩ := PushBack_spec v x hv hb
    obtain ⟨v2, h2, hs2, hl2, hb2, hv2⟩ := ih v1 hv1 hb1
    refine ⟨v2, ?_, ?_, ?_, hb2, hv2⟩
    · simp only [SimpleVector.pushAll, h1]
      exact h2
    · rw [hs2, hs1, List.length_cons]; omega
    · rw [hl2, hl1, List.append_assoc]; rfl

/-- C6: `PushBack(x_1), ..., PushBack(x_n)` on a default-constructed vector all
return, and leave a vector of size `n` whose live sequence is `x_1, ..., x_n`
in call order. -/
theorem pushAll_default_ctor {α : Type} [Inhabited α] (xs : List α) :
    ∃ v : SimpleVector α, SimpleVector.pushAll SimpleVector.default_ctor xs = Outcome.ok () v ∧
      v.GetSize = xs.length ∧ v.live = xs := by
  obtain ⟨v, h, hs, hl, -, -⟩ := pushAll_spec xs (SimpleVector.default_ctor : SimpleVector α)
    (le_refl _) rfl
  refine ⟨v, h, ?_, ?_⟩
  · rw [SimpleVector.GetSize, hs]; simp [SimpleVector.default_ctor]
  · rw [hl]; simp [SimpleVector.live, SimpleVector.default_ctor]

/-! ## Erase on a vector whose live elements are inside the buffer -/

theorem Erase_spec {α : Type} (v : SimpleVector α) (k : Nat) (hk : k < v.size_)
    (hb : v.size_ ≤ v.simple_vector_.length) :
    ∃ v', SimpleVector.Erase v (k : Int) = Outcome.ok (k : Int) v' ∧
      v'.size_ = v.size_ - 1 ∧ v'.capacity_ = v.capacity_ ∧
      v'.simple_vector_.length = v.simple_vector_.length ∧
      v'.live = v.live.take k ++ v.live.drop (k + 1) := by
  obtain ⟨r, hr, hlen, hget⟩ := moveWithinLoop_spec (v.size_ - (k + 1)) v.simple_vector_ k
    (by omega)
  refine ⟨SimpleVector.mk r (v.size_ - 1) v.capacity_, ?_, rfl, rfl, hlen, ?_⟩
  · unfold SimpleVector.Erase
    have h1 : (k : Int) ≥ v.cbegin := by simp [SimpleVector.cbegin]
    have h2 : (k : Int) ≤ v.cend := by simp only [SimpleVector.cend]; omega
    rw [if_neg (not_not.2 h1), if_neg (not_not.2 h2)]
    simp only [Int.toNat_ofNat, std_move_within, if_neg (show ¬ v.size_ < k + 1 by omega), hr,
      Option.bind_eq_bind, Option.some_bind, Option.pure_def]
    rfl
  · show r.take (v.size_ - 1) = (v.simple_vector_.take v.size_).take k
      ++ (v.simple_vector_.take v.size_).drop (k + 1)
    rw [← List.eraseIdx_eq_take_drop_succ]
    apply List.ext_getElem?
    intro j
    rw [List.getElem?_take, List.getElem?_eraseIdx, hget j]
    by_cases h1 : j < k
    · rw [if_pos (by omega), if_neg (by omega), if_pos h1, List.getElem?_take,
        if_pos (by omega)]
    · rw [if_neg h1]
      by_cases h2 : j < v.size_ - 1
      · rw [if_pos h2, if_pos (by omega), List.getElem?_take, if_pos (by omega)]
      · rw [if_neg h2, List.getElem?_take, if_neg (by omega)]

/-! ## The invariants -/

/-- C1: in every state reached from a constructor by public operations that
return, `GetSize() <= GetCapacity()`. -/
theorem GetSize_le_GetCapacity {α : Type} [Inhabited α] (v : SimpleVector α)
    (h : Reachable v) : v.GetSize ≤ v.GetCapacity :=
  (reachable_bounds v h).1

/-- C1 at the vector `{1, 2, 3}` after `Resize(5)`. -/
theorem GetSize_le_GetCapacity_witness :
    Reachable (SimpleVector.mk [1, 2, 3, 0, 0] 5 10 : SimpleVector Int) ∧
      (SimpleVector.mk [1, 2, 3, 0, 0] 5 10 : SimpleVector Int).GetSize ≤
        (SimpleVector.mk [1, 2, 3, 0, 0] 5 10 : SimpleVector Int).GetCapacity :=
  have h : Reachable (SimpleVector.mk [1, 2, 3, 0, 0] 5 10 : SimpleVector Int) :=
    Reachable.Resize (SimpleVector.mk [1, 2, 3] 3 3) 5 _
      (Reachable.ctor_init [1, 2, 3] _ (by decide)) (by decide)
  ⟨h, GetSize_le_GetCapacity _ h⟩

/-- C2: the capacity is not always the number of allocated slots.  The vector
built by `PushBack(1)`, `PushBack(2)`, `PushBack(3)` has size 3 and capacity 4;
its copy is a reachable state that reports capacity 4 and owns a buffer of 3
slots.  `Resize(5)` on `{1, 2, 3}` reports capacity 10 and owns 5 slots. -/
theorem ctor_copy_capacity_not_allocated :
    SimpleVector.pushAll SimpleVector.default_ctor [1, 2, 3]
        = Outcome.ok () (SimpleVector.mk [1, 2, 3, (0 : Int)] 3 4) ∧
      SimpleVector.ctor_copy (SimpleVector.mk [1, 2, 3, (0 : Int)] 3 4)
        = Outcome.ok () (SimpleVector.mk [1, 2, 3] 3 4) ∧
      Reachable (SimpleVector.mk [1, 2, 3] 3 4 : SimpleVector Int) ∧
      (SimpleVector.mk [1, 2, 3] 3 4 : SimpleVector Int).GetCapacity = 4 ∧
      (SimpleVector.mk [1, 2, 3] 3 4 : SimpleVector Int).allocated = 3 ∧
      SimpleVector.Resize (SimpleVector.mk [1, 2, (3 : Int)] 3 3) 5
        = Outcome.ok () (SimpleVector.mk [1, 2, 3, 0, 0] 5 10) := by
  refine ⟨by decide, by decide, ?_, rfl, rfl, by decide⟩
  have h1 : Reachable (SimpleVector.mk [(1 : Int)] 1 1) :=
    Reachable.PushBack SimpleVector.default_ctor 1 _ Reachable.default_ctor (by decide)
  have h2 : Reachable (SimpleVector.mk [(1 : Int), 2] 2 2) :=
    Reachable.PushBack _ 2 _ h1 (by decide)
  have h3 : Reachable (SimpleVector.mk [(1 : Int), 2, 3, 0] 3 4) :=
    Reachable.PushBack _ 3 _ h2 (by decide)
  exact Reachable.ctor_copy _ _ h3 (by decide)

/-! ## Insert -/

/-- C3: the copying `Insert` on a full, non-empty vector does not produce the
extended sequence.  On `{1, 2, 3}` (size 3, capacity 3) with `pos = begin() + 1`
and value 99 the new buffer has 3 slots and the shifting loop writes
`simple_vector_[3]`, outside of it. -/
theorem Insert_full_writes_outside_buffer :
    SimpleVector.ctor_init [1, 2, (3 : Int)] = Outcome.ok () (SimpleVector.mk [1, 2, 3] 3 3) ∧
      SimpleVector.Insert_grow (SimpleVector.mk [1, 2, (3 : Int)] 3 3)
        = some (SimpleVector.mk [1, 2, 3] 3 6) ∧
      shiftLoop [1, 2, (3 : Int)] 3 (3 - 1) = none ∧
      SimpleVector.Insert (SimpleVector.mk [1, 2, (3 : Int)] 3 3) 1 99 = Outcome.undefined := by
  decide

/-- C4: the moving `Insert` with spare capacity writes one slot too far.  On the
vector built by `PushBack(1)`, `PushBack(2)`, `PushBack(3)` (size 3, capacity 4,
a buffer of 4 slots) with `pos = begin() + 1`, `std::copy_backward` ends at
`&simple_vector_[5]` and first writes `simple_vector_[4]`, outside the buffer,
in either evaluation order of its arguments. -/
theorem Insert_move_spare_writes_outside_buffer :
    SimpleVector.pushAll SimpleVector.default_ctor [1, 2, 3]
        = Outcome.ok () (SimpleVector.mk [1, 2, 3, (0 : Int)] 3 4) ∧
      SimpleVector.Insert_move ArgOrder.leftToRight (SimpleVector.mk [1, 2, 3, (0 : Int)] 3 4) 1 99
        = Outcome.undefined ∧
      SimpleVector.Insert_move ArgOrder.rightToLeft (SimpleVector.mk [1, 2, 3, (0 : Int)] 3 4) 1 99
        = Outcome.undefined := by
  decide

/-- With more spare capacity (size 3, capacity 5) the moving `Insert` returns;
when `end()` is evaluated before `++size_` the live sequence comes out as
`1, 99, 3, 2`, in the other order as `1, 99, 2, 3`. -/
theorem Insert_move_spare_depends_on_order :
    SimpleVector.Insert_move ArgOrder.leftToRight (SimpleVector.mk [1, 2, 3, 0, (0 : Int)] 3 5) 1 99
        = Outcome.ok 1 (SimpleVector.mk [1, 99, 3, 2, 3] 4 5) ∧
      SimpleVector.Insert_move ArgOrder.rightToLeft (SimpleVector.mk [1, 2, 3, 0, (0 : Int)] 3 5) 1 99
        = Outcome.ok 1 (SimpleVector.mk [1, 99, 2, 3, 0] 4 5) := by
  decide

/-- The scenario of the spec, `Insert(begin() + 1, 99)` on `{1, 2, 3}`, runs the
reallocating branch of the moving `Insert` and gives `1, 99, 2, 3`. -/
theorem Insert_move_scenario (ord : ArgOrder) :
    SimpleVector.Insert_move ord (SimpleVector.mk [1, 2, (3 : Int)] 3 3) 1 99
      = Outcome.ok 1 (SimpleVector.mk [1, 99, 2, 3, 0, 0] 4 6) := by
  cases ord <;> decide

/-! ## PushBack -/

/-- C5: `PushBack` does not store its argument in an allocated slot in every
reachable state.  After `Resize(5)` on `{1, 2, 3}` the vector has size 5,
capacity 10 and a buffer of 5 slots; both `PushBack` overloads take the branch
`capacity_ > size_` and write `simple_vector_[5]`, outside the buffer.  The same
happens on the copy of a vector of size 3 and capacity 4. -/
theorem PushBack_after_Resize_writes_outside_buffer :
    SimpleVector.Resize (SimpleVector.mk [1, 2, (3 : Int)] 3 3) 5
        = Outcome.ok () (SimpleVector.mk [1, 2, 3, 0, 0] 5 10) ∧
      SimpleVector.PushBack (SimpleVector.mk [1, 2, 3, 0, (0 : Int)] 5 10) 7
        = Outcome.undefined ∧
      SimpleVector.PushBack_move (SimpleVector.mk [1, 2, 3, 0, (0 : Int)] 5 10) 7
        = Outcome.undefined ∧
      SimpleVector.ctor_copy (SimpleVector.mk [1, 2, 3, (0 : Int)] 3 4)
        = Outcome.ok () (SimpleVector.mk [1, 2, 3] 3 4) ∧
      SimpleVector.PushBack (SimpleVector.mk [1, 2, (3 : Int)] 3 4) 7 = Outcome.undefined := by
  decide

/-- On a vector whose buffer has `capacity_` slots, `PushBack` returns, adds one
to the size, keeps the live elements and puts the argument behind them. -/
theorem PushBack_full_buffer {α : Type} [Inhabited α] (v : SimpleVector α) (item : α)
    (hv : v.GetSize ≤ v.GetCapacity) (hb : v.allocated = v.GetCapacity) :
    ∃ v', SimpleVector.PushBack v item = Outcome.ok () v' ∧
      SimpleVector.PushBack_move v item = Outcome.ok () v' ∧
      v'.GetSize = v.GetSize + 1 ∧ v'.live = v.live ++ [item] ∧
      SimpleVector.At v' v.GetSize = Outcome.ok item v' := by
  have hv0 : v.size_ ≤ v.capacity_ := hv
  have hb0 : v.simple_vector_.length = v.capacity_ := hb
  obtain ⟨v', h, hs, hl, hb', hv', -⟩ := PushBack_spec v item hv0 hb0
  refine ⟨v', h, h, hs, hl, ?_⟩
  have hlt : v.size_ < v'.simple_vector_.length := by omega
  have hlive : v.live.length = v.size_ := by
    simp only [SimpleVector.live, List.length_take]
    omega
  have hget : v'.simple_vector_[v.size_]? = some item := by
    have h1 : v'.live[v.size_]? = some item := by
      rw [hl, List.getElem?_append_right (by omega), hlive]
      simp
    rw [SimpleVector.live, List.getElem?_take, if_pos (by omega)] at h1
    exact h1
  unfold SimpleVector.At
  rw [if_neg (by simp only [SimpleVector.GetSize]; omega)]
  simp only [SimpleVector.GetSize, ArrayPtr.read, hget]

/-! ## Erase -/

/-- C7: `Erase(begin() + k)` with `k < size` returns the position `k`, makes
the size one smaller, removes the element of index `k` from the live sequence
while keeping the others in order, and keeps the capacity; the returned position
is `end()` when `k` was the last index. -/
theorem Erase_removes_element {α : Type} (v : SimpleVector α) (k : Nat)
    (hk : k < v.GetSize) (hb : v.GetSize ≤ v.allocated) :
    ∃ v', SimpleVector.Erase v (v.cbegin + k) = Outcome.ok (v.cbegin + k) v' ∧
      v'.GetSize + 1 = v.GetSize ∧
      v'.live = v.live.take k ++ v.live.drop (k + 1) ∧
      (∀ i, k ≤ i → v'.live[i]? = v.live[i + 1]?) ∧
      v'.GetCapacity = v.GetCapacity ∧
      (k + 1 = v.GetSize → v.cbegin + (k : Int) = v'.cend) := by
  obtain ⟨v', h, hs, hc, -, hl⟩ := Erase_spec v k hk hb
  simp only [SimpleVector.GetSize] at hk
  refine ⟨v', ?_, ?_, hl, ?_, hc, ?_⟩
  · simp only [SimpleVector.cbegin, Int.zero_add]
    exact h
  · simp only [SimpleVector.GetSize, hs]
    omega
  · intro i hi
    rw [hl, ← List.eraseIdx_eq_take_drop_succ, List.getElem?_eraseIdx, if_neg (by omega)]
  · intro hlast
    simp only [SimpleVector.GetSize] at hlast
    simp only [SimpleVector.cbegin, SimpleVector.cend, hs, Int.zero_add]
    omega

/-- C7 at the scenario of the spec: `Erase(begin() + 1)` on `1, 99, 2, 3`. -/
theorem Erase_removes_element_witness :
    1 < (SimpleVector.mk [1, 99, 2, (3 : Int)] 4 4).GetSize ∧
      (SimpleVector.mk [1, 99, 2, (3 : Int)] 4 4).GetSize
        ≤ (SimpleVector.mk [1, 99, 2, (3 : Int)] 4 4).allocated ∧
      SimpleVector.Erase (SimpleVector.mk [1, 99, 2, (3 : Int)] 4 4) 1
        = Outcome.ok 1 (SimpleVector.mk [1, 2, 3, 3] 3 4) ∧
      (SimpleVector.mk [1, 2, 3, (3 : Int)] 3 4).live = [1, 2, 3] ∧
      ∃ v', SimpleVector.Erase (SimpleVector.mk [1, 99, 2, (3 : Int)] 4 4)
          ((SimpleVector.mk [1, 99, 2, (3 : Int)] 4 4).cbegin + (1 : Nat))
          = Outcome.ok ((SimpleVector.mk [1, 99, 2, (3 : Int)] 4 4).cbegin + (1 : Nat)) v' ∧
        v'.GetSize + 1 = (SimpleVector.mk [1, 99, 2, (3 : Int)] 4 4).GetSize ∧
        v'.live = (SimpleVector.mk [1, 99, 2, (3 : Int)] 4 4).live.take 1
          ++ (SimpleVector.mk [1, 99, 2, (3 : Int)] 4 4).live.drop (1 + 1) ∧
        (∀ i, 1 ≤ i → v'.live[i]? = (SimpleVector.mk [1, 99, 2, (3 : Int)] 4 4).live[i + 1]?) ∧
        v'.GetCapacity = (SimpleVector.mk [1, 99, 2, (3 : Int)] 4 4).GetCapacity ∧
        (1 + 1 = (SimpleVector.mk [1, 99, 2, (3 : Int)] 4 4).GetSize →
          (SimpleVector.mk [1, 99, 2, (3 : Int)] 4 4).cbegin + ((1 : Nat) : Int) = v'.cend) :=
  ⟨by decide, by decide, by decide, by decide,
    Erase_removes_element (SimpleVector.mk [1, 99, 2, (3 : Int)] 4 4) 1 (by decide) (by decide)⟩

/-! ## Checked access and the range check of Insert -/

/-- C8: `At(i)` throws `std::out_of_range` exactly when `i >= GetSize()`, and
the vector is unchanged at the throw; for `i < GetSize()` it returns the element
of the live sequence at index `i`, the same element `operator[]` returns, and
leaves the vector as it was. -/
theorem At_checked {α : Type} (v : SimpleVector α) (i : Nat) (hb : v.GetSize ≤ v.allocated) :
    ((∃ st, SimpleVector.At v i = Outcome.out_of_range st) ↔ i ≥ v.GetSize) ∧
      (i ≥ v.GetSize → SimpleVector.At v i = Outcome.out_of_range v) ∧
      (i < v.GetSize → ∃ x, v.live[i]? = some x ∧ SimpleVector.At v i = Outcome.ok x v ∧
        SimpleVector.index v i = Outcome.ok x v) := by
  have hb0 : v.size_ ≤ v.simple_vector_.length := hb
  have hok : i < v.size_ → ∃ x, v.live[i]? = some x ∧ SimpleVector.At v i = Outcome.ok x v ∧
      SimpleVector.index v i = Outcome.ok x v := by
    intro hi
    have hlt : i < v.simple_vector_.length := by omega
    refine ⟨v.simple_vector_.get ⟨i, hlt⟩, ?_, ?_, ?_⟩
    · rw [SimpleVector.live, List.getElem?_take, if_pos hi, List.getElem?_eq_getElem hlt]
      rfl
    · unfold SimpleVector.At
      rw [if_neg (by omega)]
      simp only [read_eq_some_of_lt _ _ hlt]
    · unfold SimpleVector.index
      simp only [read_eq_some_of_lt _ _ hlt]
  have hthrow : i ≥ v.size_ → SimpleVector.At v i = Outcome.out_of_range v := by
    intro hi
    unfold SimpleVector.At
    rw [if_pos hi]
  refine ⟨⟨?_, fun hi => ⟨v, hthrow hi⟩⟩, hthrow, hok⟩
  rintro ⟨st, hst⟩
  by_contra hi
  obtain ⟨x, -, hx, -⟩ := hok (by simp only [SimpleVector.GetSize] at hi; omega)
  rw [hx] at hst
  exact absurd hst (by simp)

/-- C8 at the scenario of the spec: `At(10)` on a vector of 3 elements. -/
theorem At_checked_witness :
    (SimpleVector.mk [1, 2, (3 : Int)] 3 3).GetSize ≤ (SimpleVector.mk [1, 2, (3 : Int)] 3 3).allocated ∧
      SimpleVector.At (SimpleVector.mk [1, 2, (3 : Int)] 3 3) 10
        = Outcome.out_of_range (SimpleVector.mk [1, 2, 3] 3 3) ∧
      SimpleVector.At (SimpleVector.mk [1, 2, (3 : Int)] 3 3) 1
        = Outcome.ok 2 (SimpleVector.mk [1, 2, 3] 3 3) ∧
      (((∃ st, SimpleVector.At (SimpleVector.mk [1, 2, (3 : Int)] 3 3) 10 = Outcome.out_of_range st)
          ↔ 10 ≥ (SimpleVector.mk [1, 2, (3 : Int)] 3 3).GetSize) ∧
        (10 ≥ (SimpleVector.mk [1, 2, (3 : Int)] 3 3).GetSize →
          SimpleVector.At (SimpleVector.mk [1, 2, (3 : Int)] 3 3) 10
            = Outcome.out_of_range (SimpleVector.mk [1, 2, (3 : Int)] 3 3)) ∧
        (10 < (SimpleVector.mk [1, 2, (3 : Int)] 3 3).GetSize →
          ∃ x, (SimpleVector.mk [1, 2, (3 : Int)] 3 3).live[10]? = some x ∧
            SimpleVector.At (SimpleVector.mk [1, 2, (3 : Int)] 3 3) 10
              = Outcome.ok x (SimpleVector.mk [1, 2, (3 : Int)] 3 3) ∧
            SimpleVector.index (SimpleVector.mk [1, 2, (3 : Int)] 3 3) 10
              = Outcome.ok x (SimpleVector.mk [1, 2, (3 : Int)] 3 3))) :=
  ⟨by decide, by decide, by decide,
    At_checked (SimpleVector.mk [1, 2, (3 : Int)] 3 3) 10 (by decide)⟩

theorem ofOption_ne_out_of_range {σ β : Type} (o : Option σ) (r : β) (st : σ) :
    Outcome.ofOption o r ≠ Outcome.out_of_range st := by
  cases o <;> simp [Outcome.ofOption]

/-- C9: both `Insert` overloads throw `std::out_of_range` exactly when the
position lies before `begin()` or behind `end()`, and the throw leaves the
vector as it was. -/
theorem Insert_out_of_range {α : Type} [Inhabited α] (ord : ArgOrder) (v : SimpleVector α)
    (pos : Int) (value : α) :
    ((∃ st, SimpleVector.Insert v pos value = Outcome.out_of_range st)
        ↔ (pos < v.cbegin ∨ v.cend < pos)) ∧
      ((∃ st, SimpleVector.Insert_move ord v pos value = Outcome.out_of_range st)
        ↔ (pos < v.cbegin ∨ v.cend < pos)) ∧
      (∀ st, SimpleVector.Insert v pos value = Outcome.out_of_range st → st = v) ∧
      (∀ st, SimpleVector.Insert_move ord v pos value = Outcome.out_of_range st → st = v) := by
  by_cases h : v.cbegin ≤ pos ∧ v.cend ≥ pos
  · have hno : ¬ (pos < v.cbegin ∨ v.cend < pos) := by omega
    have h1 : ∀ st, SimpleVector.Insert v pos value ≠ Outcome.out_of_range st := by
      intro st
      unfold SimpleVector.Insert
      rw [if_pos h]
      exact ofOption_ne_out_of_range _ _ _
    have h2 : ∀ st, SimpleVector.Insert_move ord v pos value ≠ Outcome.out_of_range st := by
      intro st
      unfold SimpleVector.Insert_move
      rw [if_pos h]
      split_ifs <;> exact ofOption_ne_out_of_range _ _ _
    refine ⟨⟨?_, fun hp => absurd hp hno⟩, ⟨?_, fun hp => absurd hp hno⟩, ?_, ?_⟩
    · rintro ⟨st, hst⟩; exact absurd hst (h1 st)
    · rintro ⟨st, hst⟩; exact absurd hst (h2 st)
    · intro st hst; exact absurd hst (h1 st)
    · intro st hst; exact absurd hst (h2 st)
  · have hout : pos < v.cbegin ∨ v.cend < pos := by omega
    have h1 : SimpleVector.Insert v pos value = Outcome.out_of_range v := by
      unfold SimpleVector.Insert
      rw [if_neg h]
    have h2 : SimpleVector.Insert_move ord v pos value = Outcome.out_of_range v := by
      unfold SimpleVector.Insert_move
      rw [if_neg h]
    refine ⟨⟨fun _ => hout, fun _ => ⟨v, h1⟩⟩, ⟨fun _ => hout, fun _ => ⟨v, h2⟩⟩, ?_, ?_⟩
    · intro st hst
      rw [h1] at hst
      simp only [Outcome.out_of_range.injEq] at hst
      exact hst.symm
    · intro st hst
      rw [h2] at hst
      simp only [Outcome.out_of_range.injEq] at hst
      exact hst.symm

/-- C9 at `{1, 2, 3}`: the positions `begin() - 1` and `begin() + 4` make both
overloads throw and leave the vector as it was; `begin() + 3`, which is `end()`,
does not. -/
theorem Insert_out_of_range_witness :
    SimpleVector.Insert (SimpleVector.mk [1, 2, (3 : Int)] 3 3) (-1) 99
        = Outcome.out_of_range (SimpleVector.mk [1, 2, 3] 3 3) ∧
      SimpleVector.Insert_move ArgOrder.rightToLeft (SimpleVector.mk [1, 2, (3 : Int)] 3 3) 4 99
        = Outcome.out_of_range (SimpleVector.mk [1, 2, 3] 3 3) ∧
      SimpleVector.Insert_move ArgOrder.rightToLeft (SimpleVector.mk [1, 2, (3 : Int)] 3 3) 3 99
        = Outcome.ok 3 (SimpleVector.mk [1, 2, 3, 99, 0, 0] 4 6) ∧
      ((∃ st, SimpleVector.Insert (SimpleVector.mk [1, 2, (3 : Int)] 3 3) 4 99
          = Outcome.out_of_range st)
        ↔ ((4 : Int) < (SimpleVector.mk [1, 2, (3 : Int)] 3 3).cbegin
          ∨ (SimpleVector.mk [1, 2, (3 : Int)] 3 3).cend < 4)) :=
  ⟨by decide, by decide, by decide,
    (Insert_out_of_range ArgOrder.rightToLeft (SimpleVector.mk [1, 2, (3 : Int)] 3 3) 4 99).1⟩

/-! ## Resize -/

/-- C10: `Resize` inside the capacity does not reset the first newly exposed
slot.  `PushBack` of 1, 2, 3, 4, two `PopBack` and `Resize(3)` leave the live
sequence `1, 2, 3`, not `1, 2, 0`: the loop starts at slot `new_size` and stops
before slot `size_`, so it writes slot 3 and never slot 2. -/
theorem Resize_within_capacity_keeps_stale_slot :
    SimpleVector.pushAll SimpleVector.default_ctor [1, 2, 3, 4]
        = Outcome.ok () (SimpleVector.mk [1, 2, 3, (4 : Int)] 4 4) ∧
      SimpleVector.PopBack (SimpleVector.PopBack (SimpleVector.mk [1, 2, 3, (4 : Int)] 4 4))
        = SimpleVector.mk [1, 2, 3, 4] 2 4 ∧
      SimpleVector.Resize (SimpleVector.mk [1, 2, 3, (4 : Int)] 2 4) 3
        = Outcome.ok () (SimpleVector.mk [1, 2, 3, 0] 3 4) ∧
      (SimpleVector.mk [1, 2, 3, (0 : Int)] 3 4).live = [1, 2, 3] ∧
      SimpleVector.At (SimpleVector.mk [1, 2, 3, (0 : Int)] 3 4) 2
        = Outcome.ok 3 (SimpleVector.mk [1, 2, 3, 0] 3 4) := by
  decide

/-! ## Resize and Reserve on a vector whose live elements are inside the buffer -/

theorem live_length {α : Type} (v : SimpleVector α) (hb : v.size_ ≤ v.simple_vector_.length) :
    v.live.length = v.size_ := by
  simp only [SimpleVector.live, List.length_take]
  omega

theorem Resize_grow_spec {α : Type} [Inhabited α] (v : SimpleVector α) (new_size : Nat)
    (hb : v.size_ ≤ v.simple_vector_.length) (h1 : v.size_ < new_size)
    (h2 : v.capacity_ ≤ new_size) :
    ∃ v', SimpleVector.Resize v new_size = Outcome.ok () v' ∧ v'.size_ = new_size ∧
      v'.capacity_ = new_size * 2 ∧ v'.simple_vector_.length = new_size ∧
      v'.live = v.live ++ List.replicate (new_size - v.size_) default := by
  obtain ⟨t, ht, hlen, hget⟩ := std_copy_spec v.simple_vector_ v.size_
    (ArrayPtr.create new_size) hb (by rw [create_length]; omega)
  rw [create_length] at hlen
  refine ⟨SimpleVector.mk t new_size (new_size * 2), ?_, rfl, rfl, hlen, ?_⟩
  · unfold SimpleVector.Resize
    rw [if_neg (by omega), if_neg (by omega)]
    simp only [Option.bind_eq_bind, ht, Option.some_bind, Option.pure_def]
    rfl
  · show t.take new_size = v.simple_vector_.take v.size_ ++ _
    apply List.ext_getElem?
    intro i
    have hl : (v.simple_vector_.take v.size_).length = v.size_ := by
      rw [List.length_take]; omega
    rw [List.getElem?_take, List.getElem?_append, hl, hget i]
    by_cases hi : i < v.size_
    · rw [if_pos (by omega), if_pos hi, if_pos hi, List.getElem?_take, if_pos hi]
    · rw [if_neg hi, if_neg hi]
      simp only [ArrayPtr.create, List.getElem?_replicate]
      by_cases hn : i < new_size
      · rw [if_pos hn, if_pos hn, if_pos (by omega)]
      · rw [if_neg hn, if_neg (by omega)]

theorem Reserve_spec {α : Type} [Inhabited α] (v : SimpleVector α) (new_capacity : Nat)
    (hv : v.size_ ≤ v.capacity_) (hb : v.size_ ≤ v.simple_vector_.length) :
    ∃ v', SimpleVector.Reserve v new_capacity = Outcome.ok () v' ∧ v'.size_ = v.size_ ∧
      v'.live = v.live ∧ v'.capacity_ = max v.capacity_ new_capacity ∧
      (new_capacity ≤ v.capacity_ → v' = v) ∧
      (v.capacity_ < new_capacity → v'.simple_vector_.length = new_capacity) := by
  unfold SimpleVector.Reserve
  by_cases h : new_capacity > v.capacity_
  · have hs : v.size_ ≤ new_capacity := by omega
    · obtain ⟨t, ht, hlen, hget⟩ := std_copy_spec v.simple_vector_ v.size_
        (ArrayPtr.create new_capacity) hb (by rw [create_length]; omega)
      rw [create_length] at hlen
      refine ⟨SimpleVector.mk t v.size_ new_capacity, ?_, rfl, ?_, ?_, ?_, fun _ => hlen⟩
      · rw [if_pos h]
        simp only [Option.bind_eq_bind, ht, Option.some_bind, Option.pure_def]
        rfl
      · exact take_eq_take_of_getElem? _ _ _ (fun i hi => by rw [hget i, if_pos hi])
      · show new_capacity = max v.capacity_ new_capacity
        omega
      · intro hle
        omega
  · rw [if_neg h]
    refine ⟨v, rfl, rfl, rfl, ?_, fun _ => rfl, fun hlt => ?_⟩
    · show v.capacity_ = max v.capacity_ new_capacity
      omega
    · omega

/-- C11: `Resize(new_size)` with `new_size > GetSize()` and
`new_size >= GetCapacity()` returns, sets the size to `new_size` and the
capacity to `new_size * 2`, keeps the elements at the indices below the old size
and gives every index from the old size up to `new_size` the default value. -/
theorem Resize_grow {α : Type} [Inhabited α] (v : SimpleVector α) (new_size : Nat)
    (hb : v.GetSize ≤ v.allocated) (h1 : new_size > v.GetSize)
    (h2 : new_size ≥ v.GetCapacity) :
    ∃ v', SimpleVector.Resize v new_size = Outcome.ok () v' ∧ v'.GetSize = new_size ∧
      v'.GetCapacity = new_size * 2 ∧
      v'.live = v.live ++ List.replicate (new_size - v.GetSize) default ∧
      (∀ i, i < v.GetSize → v'.live[i]? = v.live[i]?) ∧
      (∀ i, v.GetSize ≤ i → i < new_size → v'.live[i]? = some default) := by
  obtain ⟨v', h, hs, hc, -, hl⟩ := Resize_grow_spec v new_size hb h1 h2
  have hlen := live_length v hb
  simp only [SimpleVector.GetSize] at h1 ⊢
  refine ⟨v', h, hs, hc, hl, ?_, ?_⟩
  · intro i hi
    rw [hl, List.getElem?_append_left (by omega)]
  · intro i hi hn
    rw [hl, List.getElem?_append_right (by omega), hlen, List.getElem?_replicate,
      if_pos (by omega)]

/-- C11 at the scenario of the spec: `Resize(5)` on `{1, 2, 3}` gives
`1, 2, 3, 0, 0` with size 5. -/
theorem Resize_grow_witness :
    SimpleVector.Resize (SimpleVector.mk [1, 2, (3 : Int)] 3 3) 5
        = Outcome.ok () (SimpleVector.mk [1, 2, 3, 0, 0] 5 10) ∧
      (SimpleVector.mk [1, 2, 3, 0, (0 : Int)] 5 10).live = [1, 2, 3, 0, 0] ∧
      ∃ v', SimpleVector.Resize (SimpleVector.mk [1, 2, (3 : Int)] 3 3) 5 = Outcome.ok () v' ∧
        v'.GetSize = 5 ∧ v'.GetCapacity = 5 * 2 ∧
        v'.live = (SimpleVector.mk [1, 2, (3 : Int)] 3 3).live
          ++ List.replicate (5 - (SimpleVector.mk [1, 2, (3 : Int)] 3 3).GetSize) default ∧
        (∀ i, i < (SimpleVector.mk [1, 2, (3 : Int)] 3 3).GetSize →
          v'.live[i]? = (SimpleVector.mk [1, 2, (3 : Int)] 3 3).live[i]?) ∧
        (∀ i, (SimpleVector.mk [1, 2, (3 : Int)] 3 3).GetSize ≤ i → i < 5 →
          v'.live[i]? = some default) :=
  ⟨by decide, by decide,
    Resize_grow (SimpleVector.mk [1, 2, (3 : Int)] 3 3) 5 (by decide) (by decide) (by decide)⟩

/-- C12: `Reserve(new_capacity)` returns, keeps the size and the live elements,
and sets the capacity to the larger of the old capacity and `new_capacity`: it
changes nothing when `new_capacity <= capacity`, and otherwise the vector owns
a buffer of exactly `new_capacity` slots. -/
theorem Reserve_keeps_elements {α : Type} [Inhabited α] (v : SimpleVector α)
    (new_capacity : Nat) (hv : v.GetSize ≤ v.GetCapacity) (hb : v.GetSize ≤ v.allocated) :
    ∃ v', SimpleVector.Reserve v new_capacity = Outcome.ok () v' ∧ v'.GetSize = v.GetSize ∧
      v'.live = v.live ∧ v'.GetCapacity = max v.GetCapacity new_capacity ∧
      (new_capacity ≤ v.GetCapacity → v' = v) ∧
      (v.GetCapacity < new_capacity → v'.allocated = new_capacity) :=
  Reserve_spec v new_capacity hv hb

/-- C12 at the vector of size 3 and capacity 4 with `Reserve(6)`. -/
theorem Reserve_keeps_elements_witness :
    SimpleVector.Reserve (SimpleVector.mk [1, 2, 3, (0 : Int)] 3 4) 6
        = Outcome.ok () (SimpleVector.mk [1, 2, 3, 0, 0, 0] 3 6) ∧
      ∃ v', SimpleVector.Reserve (SimpleVector.mk [1, 2, 3, (0 : Int)] 3 4) 6 = Outcome.ok () v' ∧
        v'.GetSize = (SimpleVector.mk [1, 2, 3, (0 : Int)] 3 4).GetSize ∧
        v'.live = (SimpleVector.mk [1, 2, 3, (0 : Int)] 3 4).live ∧
        v'.GetCapacity = max (SimpleVector.mk [1, 2, 3, (0 : Int)] 3 4).GetCapacity 6 ∧
        (6 ≤ (SimpleVector.mk [1, 2, 3, (0 : Int)] 3 4).GetCapacity →
          v' = SimpleVector.mk [1, 2, 3, (0 : Int)] 3 4) ∧
        ((SimpleVector.mk [1, 2, 3, (0 : Int)] 3 4).GetCapacity < 6 → v'.allocated = 6) :=
  ⟨by decide,
    Reserve_keeps_elements (SimpleVector.mk [1, 2, 3, (0 : Int)] 3 4) 6 (by decide) (by decide)⟩

/-! ## PushBack into reserved capacity -/

theorem pushAll_room {α : Type} [Inhabited α] (xs : List α) :
    ∀ v : SimpleVector α, v.simple_vector_.length = v.capacity_ →
      v.size_ + xs.length ≤ v.capacity_ →
      ∃ v', SimpleVector.pushAll v xs = Outcome.ok () v' ∧ v'.size_ = v.size_ + xs.length ∧
        v'.live = v.live ++ xs ∧ v'.capacity_ = v.capacity_ ∧
        v'.simple_vector_.length = v.capacity_ := by
  induction xs with
  | nil =>
    intro v hb _
    exact ⟨v, rfl, rfl, by simp, rfl, hb⟩
  | cons x xs ih =>
    intro v hb hroom
    rw [List.length_cons] at hroom
    obtain ⟨v1, h1, hs1, hl1, hb1, -, hc1⟩ := PushBack_spec v x (by omega) hb
    rw [if_pos (by omega)] at hc1
    obtain ⟨v2, h2, hs2, hl2, hc2, hb2⟩ := ih v1 hb1 (by omega)
    refine ⟨v2, ?_, ?_, ?_, by omega, by omega⟩
    · simp only [SimpleVector.pushAll, h1]
      exact h2
    · rw [hs2, hs1, List.length_cons]; omega
    · rw [hl2, hl1, List.append_assoc]; rfl

/-- C13: the vector constructed from `Reserve(c)`, which is the default vector
after `Reserve(c)`, has size 0 and capacity `c`; any `n <= c` calls of
`PushBack` on it return and leave the capacity and the buffer at exactly `c`
slots, with `GetSize() <= GetCapacity()`. -/
theorem Reserve_then_PushBack {α : Type} [Inhabited α] (c : Nat) (xs : List α)
    (hx : xs.length ≤ c) :
    ∃ v0 v' : SimpleVector α, SimpleVector.ctor_reserve c = Outcome.ok () v0 ∧
      SimpleVector.Reserve SimpleVector.default_ctor c = Outcome.ok () v0 ∧
      v0.GetSize = 0 ∧ v0.GetCapacity = c ∧ v0.allocated = c ∧
      SimpleVector.pushAll v0 xs = Outcome.ok () v' ∧
      v'.GetCapacity = c ∧ v'.allocated = c ∧ v'.GetSize = xs.length ∧
      v'.GetSize ≤ v'.GetCapacity ∧ v'.live = xs := by
  obtain ⟨v0, h0, hs0, hl0, hc0, hsame, halloc⟩ := Reserve_spec
    (SimpleVector.default_ctor : SimpleVector α) c (le_refl _) (Nat.zero_le _)
  have hs0' : v0.size_ = 0 := hs0
  have hc0' : v0.capacity_ = c := by
    rw [hc0]; simp [SimpleVector.default_ctor]
  have ha0 : v0.simple_vector_.length = c := by
    by_cases hc : c = 0
    · have := hsame (by simp [hc])
      rw [this, hc]; rfl
    · exact halloc (by simp only [SimpleVector.default_ctor]; omega)
  obtain ⟨v', h, hs, hl, hc, hb⟩ := pushAll_room xs v0 (by omega) (by omega)
  refine ⟨v0, v', h0, h0, hs0', hc0', ha0, h, by rw [SimpleVector.GetCapacity]; omega,
    by rw [SimpleVector.allocated]; omega, by rw [SimpleVector.GetSize]; omega,
    by rw [SimpleVector.GetSize, SimpleVector.GetCapacity]; omega, ?_⟩
  rw [hl, hl0]
  simp [SimpleVector.live, SimpleVector.default_ctor]

/-- C13 at `Reserve(3)` followed by `PushBack` of 7, 8, 9. -/
theorem Reserve_then_PushBack_witness :
    SimpleVector.ctor_reserve 3 = Outcome.ok () (SimpleVector.mk [0, 0, (0 : Int)] 0 3) ∧
      SimpleVector.pushAll (SimpleVector.mk [0, 0, (0 : Int)] 0 3) [7, 8, 9]
        = Outcome.ok () (SimpleVector.mk [7, 8, 9] 3 3) ∧
      ∃ v0 v' : SimpleVector Int, SimpleVector.ctor_reserve 3 = Outcome.ok () v0 ∧
        SimpleVector.Reserve SimpleVector.default_ctor 3 = Outcome.ok () v0 ∧
        v0.GetSize = 0 ∧ v0.GetCapacity = 3 ∧ v0.allocated = 3 ∧
        SimpleVector.pushAll v0 [7, 8, 9] = Outcome.ok () v' ∧
        v'.GetCapacity = 3 ∧ v'.allocated = 3 ∧ v'.GetSize = [7, 8, (9 : Int)].length ∧
        v'.GetSize ≤ v'.GetCapacity ∧ v'.live = [7, 8, 9] :=
  ⟨by decide, by decide, Reserve_then_PushBack 3 [7, 8, 9] (by decide)⟩

/-! ## What the comparison loops compute -/

theorem drop_take_succ {α : Type} (l : List α) (f n : Nat) (h : f < l.length) :
    (l.drop f).take (n + 1) = l.get ⟨f, h⟩ :: (l.drop (f + 1)).take n := by
  rw [List.drop_eq_getElem_cons h, List.take_succ_cons]
  rfl

theorem equalLoop_spec {α : Type} [DecidableEq α] (a b : ArrayPtr α) (n : Nat) :
    ∀ (first1 first2 : Nat), first1 + n ≤ a.length → first2 + n ≤ b.length →
      equalLoop a first1 b first2 n
        = some (decide ((a.drop first1).take n = (b.drop first2).take n)) := by
  induction n with
  | zero =>
    intro first1 first2 _ _
    simp [equalLoop]
  | succ n ih =>
    intro first1 first2 h1 h2
    have ha : first1 < a.length := by omega
    have hb : first2 < b.length := by omega
    simp only [equalLoop, Option.bind_eq_bind, read_eq_some_of_lt a first1 ha,
      read_eq_some_of_lt b first2 hb, Option.some_bind, drop_take_succ a first1 n ha,
      drop_take_succ b first2 n hb, List.cons.injEq]
    by_cases hxy : a.get ⟨first1, ha⟩ = b.get ⟨first2, hb⟩
    · rw [if_pos hxy, ih (first1 + 1) (first2 + 1) (by omega) (by omega)]
      congr 1
      exact decide_eq_decide.2 ⟨fun h => ⟨hxy, h⟩, fun h => h.2⟩
    · rw [if_neg hxy]
      simp only [Option.pure_def, Option.some.injEq]
      exact (decide_eq_false (fun h => hxy h.1)).symm

theorem operator_eq_spec {α : Type} [DecidableEq α] (a b : SimpleVector α)
    (ha : a.size_ ≤ a.simple_vector_.length) (hb : b.size_ ≤ b.simple_vector_.length) :
    SimpleVector.operator_eq a b = some (decide (a.live = b.live)) := by
  unfold SimpleVector.operator_eq std_equal
  rw [if_neg (by omega)]
  simp only [Nat.sub_zero]
  by_cases hs : a.size_ = b.size_
  · rw [if_neg (by simpa using hs), equalLoop_spec a.simple_vector_ b.simple_vector_ a.size_ 0 0
      (by omega) (by omega)]
    simp only [List.drop_zero, SimpleVector.live, hs]
  · rw [if_pos hs]
    have hne : a.live ≠ b.live := by
      intro h
      have h1 := live_length a ha
      have h2 := live_length b hb
      rw [h] at h1
      omega
    simp [hne]

theorem live_eq_iff {α : Type} (a b : SimpleVector α)
    (ha : a.size_ ≤ a.simple_vector_.length) (hb : b.size_ ≤ b.simple_vector_.length) :
    a.live = b.live ↔
      a.size_ = b.size_ ∧ ∀ i, i < a.size_ → a.simple_vector_[i]? = b.simple_vector_[i]? := by
  constructor
  · intro h
    have hs : a.size_ = b.size_ := by
      have h1 := live_length a ha
      have h2 := live_length b hb
      rw [h] at h1
      omega
    refine ⟨hs, fun i hi => ?_⟩
    have hi' : a.live[i]? = b.live[i]? := by rw [h]
    rw [SimpleVector.live, SimpleVector.live, List.getElem?_take, List.getElem?_take,
      if_pos hi, if_pos (by omega)] at hi'
    exact hi'
  · rintro ⟨hs, hget⟩
    unfold SimpleVector.live
    rw [← hs]
    exact take_eq_take_of_getElem? _ _ _ hget

theorem index_of_lt {α : Type} (v : SimpleVector α) (i : Nat) (x : α) :
    SimpleVector.index v i = Outcome.ok x v ↔ v.simple_vector_[i]? = some x := by
  unfold SimpleVector.index ArrayPtr.read
  cases h : v.simple_vector_[i]? with
  | none => simp
  | some y => simp

/-- C17: `a == b` is true exactly when the sizes are equal and `a[i] == b[i]`
for every `i` below the size, which is when the live sequences are equal; the
result is the same for any two vectors with these live sequences, whatever their
capacity and the slots behind the size; vectors of different size are not
equal; `a != b` is the negation. -/
theorem operator_eq_iff {α : Type} [DecidableEq α] (a b : SimpleVector α)
    (ha : a.GetSize ≤ a.allocated) (hb : b.GetSize ≤ b.allocated) :
    ∃ r, SimpleVector.operator_eq a b = some r ∧
      (r = true ↔ a.GetSize = b.GetSize ∧
        ∀ i, i < a.GetSize → ∃ x, SimpleVector.index a i = Outcome.ok x a ∧
          SimpleVector.index b i = Outcome.ok x b) ∧
      (r = true ↔ a.live = b.live) ∧
      (a.GetSize ≠ b.GetSize → r = false) ∧
      SimpleVector.operator_ne a b = some (!r) ∧
      (∀ a' b' : SimpleVector α, a'.GetSize ≤ a'.allocated → b'.GetSize ≤ b'.allocated →
        a'.live = a.live → b'.live = b.live → SimpleVector.operator_eq a' b' = some r) := by
  have ha0 : a.size_ ≤ a.simple_vector_.length := ha
  have hb0 : b.size_ ≤ b.simple_vector_.length := hb
  have h := operator_eq_spec a b ha0 hb0
  have hiff := live_eq_iff a b ha0 hb0
  refine ⟨decide (a.live = b.live), h, ?_, ?_, ?_, ?_, ?_⟩
  · rw [decide_eq_true_iff, hiff]
    simp only [SimpleVector.GetSize]
    constructor
    · rintro ⟨hs, hget⟩
      refine ⟨hs, fun i hi => ?_⟩
      have hlt : i < a.simple_vector_.length := by omega
      refine ⟨a.simple_vector_.get ⟨i, hlt⟩, ?_, ?_⟩
      · rw [index_of_lt, List.getElem?_eq_getElem hlt]; rfl
      · rw [index_of_lt, ← hget i hi, List.getElem?_eq_getElem hlt]; rfl
    · rintro ⟨hs, hget⟩
      refine ⟨hs, fun i hi => ?_⟩
      obtain ⟨x, hx1, hx2⟩ := hget i hi
      rw [index_of_lt] at hx1 hx2
      rw [hx1, hx2]
  · exact decide_eq_true_iff
  · intro hne
    apply decide_eq_false
    rw [hiff]
    exact fun hh => hne hh.1
  · unfold SimpleVector.operator_ne
    rw [h]
    rfl
  · intro a' b' ha' hb' hla hlb
    rw [operator_eq_spec a' b' ha' hb']
    simp only [hla, hlb]

/-- C17 at two vectors with the live sequence `1, 2, 3`, capacities 4 and 3 and
different contents behind the size, and at two vectors of different size. -/
theorem operator_eq_iff_witness :
    SimpleVector.operator_eq (SimpleVector.mk [1, 2, 3, (9 : Int)] 3 4) (SimpleVector.mk [1, 2, 3] 3 3)
        = some true ∧
      SimpleVector.operator_eq (SimpleVector.mk [1, 2, 3, (9 : Int)] 3 4)
        (SimpleVector.mk [1, 2, 3, 9] 4 4) = some false ∧
      SimpleVector.operator_ne (SimpleVector.mk [1, 2, 3, (9 : Int)] 3 4)
        (SimpleVector.mk [1, 2, 3, 9] 4 4) = some true ∧
      ∃ r, SimpleVector.operator_eq (SimpleVector.mk [1, 2, 3, (9 : Int)] 3 4)
          (SimpleVector.mk [1, 2, 3] 3 3) = some r ∧
        (r = true ↔ (SimpleVector.mk [1, 2, 3, (9 : Int)] 3 4).live
          = (SimpleVector.mk [1, 2, (3 : Int)] 3 3).live) :=
  ⟨by decide, by decide, by decide,
    (operator_eq_iff (SimpleVector.mk [1, 2, 3, (9 : Int)] 3 4) (SimpleVector.mk [1, 2, 3] 3 3)
      (by decide) (by decide)).elim fun r h => ⟨r, h.1, h.2.2.1⟩⟩

/-! ## Copy and move -/

theorem ctor_copy_spec {α : Type} [Inhabited α] (v : SimpleVector α)
    (hb : v.size_ ≤ v.simple_vector_.length) :
    ∃ c, SimpleVector.ctor_copy v = Outcome.ok () c ∧ c.size_ = v.size_ ∧
      c.capacity_ = v.capacity_ ∧ c.simple_vector_.length = v.size_ ∧ c.live = v.live := by
  obtain ⟨t, ht, hlen, hget⟩ := std_copy_spec v.simple_vector_ v.size_
    (ArrayPtr.create v.size_) hb (by rw [create_length])
  rw [create_length] at hlen
  refine ⟨SimpleVector.mk t v.size_ v.capacity_, ?_, rfl, rfl, hlen, ?_⟩
  · unfold SimpleVector.ctor_copy
    simp only [Option.bind_eq_bind, ht, Option.some_bind, Option.pure_def]
    rfl
  · exact take_eq_take_of_getElem? _ _ _ (fun i hi => by rw [hget i, if_pos hi])

/-- C14: the copy constructor, and the copy assignment to any vector `w`, return
a vector `c` with the size of `v`, a capacity that is at least its size, and the
live elements of `v` in order, so that `c == v`; an element of `c` can then be
overwritten, which changes that element of `c` and leaves the elements of `v`
as they were (`c == v` afterwards holds only if the written value is the old
one). -/
theorem ctor_copy_equal {α : Type} [Inhabited α] [DecidableEq α] (v w : SimpleVector α)
    (hv : v.GetSize ≤ v.GetCapacity) (hb : v.GetSize ≤ v.allocated) :
    ∃ c, SimpleVector.ctor_copy v = Outcome.ok () c ∧
      SimpleVector.assign w v = Outcome.ok () c ∧
      c.GetSize = v.GetSize ∧ c.GetCapacity ≥ c.GetSize ∧ c.live = v.live ∧
      SimpleVector.operator_eq c v = some true ∧
      ∀ (i : Nat) (x : α), i < c.GetSize →
        ∃ c', SimpleVector.index_assign c i x = Outcome.ok () c' ∧
          c'.GetSize = v.GetSize ∧ c'.live = v.live.set i x ∧
          SimpleVector.operator_eq c' v = some (decide (v.live.set i x = v.live)) := by
  have hb0 : v.size_ ≤ v.simple_vector_.length := hb
  obtain ⟨c, hc, hs, hcap, hlen, hl⟩ := ctor_copy_spec v hb0
  have hcb : c.size_ ≤ c.simple_vector_.length := by omega
  refine ⟨c, hc, ?_, hs, ?_, hl, ?_, ?_⟩
  · unfold SimpleVector.assign
    rw [hc]
    rfl
  · show c.size_ ≤ c.capacity_
    have : v.size_ ≤ v.capacity_ := hv
    omega
  · rw [operator_eq_spec c v hcb hb0, hl]
    simp
  · intro i x hi
    have hi0 : i < c.size_ := hi
    have hlt : i < c.simple_vector_.length := by omega
    have hl' : (SimpleVector.mk (c.simple_vector_.set i x) c.size_ c.capacity_).live
        = v.live.set i x := by
      show (c.simple_vector_.set i x).take c.size_ = v.live.set i x
      rw [List.set_take, ← hl]
      rfl
    refine ⟨SimpleVector.mk (c.simple_vector_.set i x) c.size_ c.capacity_, ?_, hs, hl', ?_⟩
    · unfold SimpleVector.index_assign
      simp only [Option.bind_eq_bind, write_of_lt _ _ _ hlt, Option.some_bind, Option.pure_def]
      rfl
    · rw [operator_eq_spec _ v (by simp only [List.length_set]; omega) hb0, hl']

/-- C14 at the vector of size 3 and capacity 4 holding `1, 2, 3`. -/
theorem ctor_copy_equal_witness :
    SimpleVector.ctor_copy (SimpleVector.mk [1, 2, 3, (0 : Int)] 3 4)
        = Outcome.ok () (SimpleVector.mk [1, 2, 3] 3 4) ∧
      SimpleVector.operator_eq (SimpleVector.mk [1, 2, (3 : Int)] 3 4)
        (SimpleVector.mk [1, 2, 3, 0] 3 4) = some true ∧
      SimpleVector.index_assign (SimpleVector.mk [1, 2, (3 : Int)] 3 4) 1 99
        = Outcome.ok () (SimpleVector.mk [1, 99, 3] 3 4) ∧
      SimpleVector.operator_eq (SimpleVector.mk [1, 99, (3 : Int)] 3 4)
        (SimpleVector.mk [1, 2, 3, 0] 3 4) = some false ∧
      ∃ c, SimpleVector.ctor_copy (SimpleVector.mk [1, 2, 3, (0 : Int)] 3 4) = Outcome.ok () c ∧
        SimpleVector.assign SimpleVector.default_ctor (SimpleVector.mk [1, 2, 3, (0 : Int)] 3 4)
          = Outcome.ok () c ∧
        c.GetSize = (SimpleVector.mk [1, 2, 3, (0 : Int)] 3 4).GetSize ∧
        c.GetCapacity ≥ c.GetSize ∧
        c.live = (SimpleVector.mk [1, 2, 3, (0 : Int)] 3 4).live ∧
        SimpleVector.operator_eq c (SimpleVector.mk [1, 2, 3, (0 : Int)] 3 4) = some true :=
  ⟨by decide, by decide, by decide, by decide,
    (ctor_copy_equal (SimpleVector.mk [1, 2, 3, (0 : Int)] 3 4) SimpleVector.default_ctor
      (by decide) (by decide)).elim
      fun c h => ⟨c, h.1, h.2.1, h.2.2.1, h.2.2.2.1, h.2.2.2.2.1, h.2.2.2.2.2.1⟩⟩

/-- C15: move construction from `v` gives a vector with the size, the capacity
and the live sequence of `v`, and leaves the source with size 0. -/
theorem ctor_move_transfers {α : Type} [Inhabited α] (v : SimpleVector α) :
    (SimpleVector.ctor_move v).1.GetSize = v.GetSize ∧
      (SimpleVector.ctor_move v).1.GetCapacity = v.GetCapacity ∧
      (SimpleVector.ctor_move v).1.live = v.live ∧
      (SimpleVector.ctor_move v).2.GetSize = 0 ∧
      (SimpleVector.ctor_move v).2.IsEmpty = true :=
  ⟨rfl, rfl, rfl, rfl, rfl⟩

/-- C16: the source of a move construction does not end with capacity 0.
Moving from the vector built by `PushBack` of 1, 2, 3 (size 3, capacity 4)
leaves the source with size 0, capacity 4 and a fresh buffer of 3 slots; four
`PushBack` calls on it then write `simple_vector_[3]`, outside that buffer. -/
theorem ctor_move_source_keeps_capacity :
    SimpleVector.pushAll SimpleVector.default_ctor [1, 2, 3]
        = Outcome.ok () (SimpleVector.mk [1, 2, 3, (0 : Int)] 3 4) ∧
      SimpleVector.ctor_move (SimpleVector.mk [1, 2, 3, (0 : Int)] 3 4)
        = (SimpleVector.mk [1, 2, 3, 0] 3 4, SimpleVector.mk [0, 0, 0] 0 4) ∧
      (SimpleVector.ctor_move (SimpleVector.mk [1, 2, 3, (0 : Int)] 3 4)).2.GetSize = 0 ∧
      (SimpleVector.ctor_move (SimpleVector.mk [1, 2, 3, (0 : Int)] 3 4)).2.GetCapacity = 4 ∧
      (SimpleVector.ctor_move (SimpleVector.mk [1, 2, 3, (0 : Int)] 3 4)).2.allocated = 3 ∧
      SimpleVector.pushAll (SimpleVector.ctor_move (SimpleVector.mk [1, 2, 3, (0 : Int)] 3 4)).2
        [5, 6, 7, 8] = Outcome.undefined := by
  decide

/-- The capacity of the source of a move construction is the capacity it had. -/
theorem ctor_move_source_capacity {α : Type} [Inhabited α] (v : SimpleVector α) :
    (SimpleVector.ctor_move v).2.GetCapacity = v.GetCapacity ∧
      (SimpleVector.ctor_move v).2.allocated = v.GetSize := by
  refine ⟨rfl, ?_⟩
  simp [SimpleVector.ctor_move, SimpleVector.Clear, SimpleVector.allocated, SimpleVector.GetSize,
    ArrayPtr.create]

/-! ## The assertions of Erase -/

/-- C19: the assertions of `Erase` do not enforce that the position denotes a
live element.  On an empty vector `pos = begin()` passes both of them although
there is no element of index 0, and on `{1, 2, 3}` so does `pos = end()`; the
call then hands `std::move` the range from `&simple_vector_[index + 1]` to
`end()`, which is not a valid range.  Only positions behind `end()` or before
`begin()` are stopped by an assertion. -/
theorem Erase_assertions_admit_end :
    ((0 : Int) ≥ (SimpleVector.default_ctor : SimpleVector Int).cbegin ∧
        (0 : Int) ≤ (SimpleVector.default_ctor : SimpleVector Int).cend ∧
        ¬ (0 < (SimpleVector.default_ctor : SimpleVector Int).GetSize) ∧
        SimpleVector.Erase (SimpleVector.default_ctor : SimpleVector Int) 0 = Outcome.undefined) ∧
      ((3 : Int) ≥ (SimpleVector.mk [1, 2, (3 : Int)] 3 3).cbegin ∧
        (3 : Int) ≤ (SimpleVector.mk [1, 2, (3 : Int)] 3 3).cend ∧
        ¬ (3 < (SimpleVector.mk [1, 2, (3 : Int)] 3 3).GetSize) ∧
        SimpleVector.Erase (SimpleVector.mk [1, 2, (3 : Int)] 3 3) 3 = Outcome.undefined) ∧
      SimpleVector.Erase (SimpleVector.mk [1, 2, (3 : Int)] 3 3) 4 = Outcome.assert_failed ∧
      SimpleVector.Erase (SimpleVector.mk [1, 2, (3 : Int)] 3 3) (-1) = Outcome.assert_failed := by
  decide

/-! ## The lexicographic comparison -/

theorem lexicographicalLoop_spec {α : Type} [LT α] [DecidableRel (fun x y : α => x < y)]
    (a b : ArrayPtr α) (n1 : Nat) :
    ∀ (n2 first1 first2 : Nat), first1 + n1 ≤ a.length → first2 + n2 ≤ b.length →
      lexicographicalLoop a first1 b first2 n1 n2
        = some (lexCompare ((a.drop first1).take n1) ((b.drop first2).take n2)) := by
  induction n1 with
  | zero =>
    intro n2 first1 first2 _ h2
    cases n2 with
    | zero => simp [lexicographicalLoop, lexCompare]
    | succ n2 =>
      have hb : first2 < b.length := by omega
      simp [lexicographicalLoop, drop_take_succ b first2 n2 hb, lexCompare]
  | succ n1 ih =>
    intro n2 first1 first2 h1 h2
    have ha : first1 < a.length := by omega
    cases n2 with
    | zero => simp [lexicographicalLoop, drop_take_succ a first1 n1 ha, lexCompare]
    | succ n2 =>
      have hb : first2 < b.length := by omega
      simp only [lexicographicalLoop, Option.bind_eq_bind, read_eq_some_of_lt a first1 ha,
        read_eq_some_of_lt b first2 hb, Option.some_bind, drop_take_succ a first1 n1 ha,
        drop_take_succ b first2 n2 hb, lexCompare, Option.pure_def]
      by_cases hxy : a.get ⟨first1, ha⟩ < b.get ⟨first2, hb⟩
      · rw [if_pos hxy, if_pos hxy]
      · rw [if_neg hxy, if_neg hxy]
        by_cases hyx : b.get ⟨first2, hb⟩ < a.get ⟨first1, ha⟩
        · rw [if_pos hyx, if_pos hyx]
        · rw [if_neg hyx, if_neg hyx]
          exact ih n2 (first1 + 1) (first2 + 1) (by omega) (by omega)

theorem LexSmaller_nil_left {α : Type} [LT α] (ys : List α) :
    LexSmaller ([] : List α) ys ↔ ys ≠ [] := by
  unfold LexSmaller
  constructor
  · rintro (⟨k, x, y, hx, -⟩ | ⟨hlen, -⟩)
    · simp at hx
    · intro h
      rw [h] at hlen
      simp at hlen
  · intro h
    right
    refine ⟨?_, fun i hi => ?_⟩
    · cases ys with
      | nil => exact absurd rfl h
      | cons y ys => simp
    · simp at hi

theorem LexSmaller_nil_right {α : Type} [LT α] (xs : List α) :
    ¬ LexSmaller xs ([] : List α) := by
  unfold LexSmaller
  rintro (⟨k, x, y, -, hy, -⟩ | ⟨hlen, -⟩)
  · simp at hy
  · simp at hlen

theorem LexSmaller_cons {α : Type} [LinearOrder α] (x y : α) (xs ys : List α) :
    LexSmaller (x :: xs) (y :: ys) ↔ x < y ∨ (x = y ∧ LexSmaller xs ys) := by
  unfold LexSmaller
  constructor
  · rintro (⟨k, x', y', hx, hy, hne, hlt, hpre⟩ | ⟨hlen, hpre⟩)
    · cases k with
      | zero =>
        simp only [List.getElem?_cons_zero, Option.some.injEq] at hx hy
        left
        rw [hx, hy]
        exact hlt
      | succ k =>
        simp only [List.getElem?_cons_succ] at hx hy
        have h0 := hpre 0 (Nat.succ_pos k)
        simp only [List.getElem?_cons_zero, Option.some.injEq] at h0
        right
        refine ⟨h0, Or.inl ⟨k, x', y', hx, hy, hne, hlt, fun i hi => ?_⟩⟩
        have := hpre (i + 1) (by omega)
        simpa only [List.getElem?_cons_succ] using this
    · have h0 := hpre 0 (by simp)
      simp only [List.getElem?_cons_zero, Option.some.injEq] at h0
      right
      refine ⟨h0, Or.inr ⟨?_, fun i hi => ?_⟩⟩
      · simp only [List.length_cons] at hlen
        omega
      · have := hpre (i + 1) (by simp only [List.length_cons]; omega)
        simpa only [List.getElem?_cons_succ] using this
  · rintro (hlt | ⟨heq, ⟨k, x', y', hx, hy, hne, hlt, hpre⟩ | ⟨hlen, hpre⟩⟩)
    · left
      exact ⟨0, x, y, by simp, by simp, ne_of_lt hlt, hlt, fun i hi => absurd hi (by omega)⟩
    · left
      refine ⟨k + 1, x', y', by simpa using hx, by simpa using hy, hne, hlt, fun i hi => ?_⟩
      cases i with
      | zero => simp [heq]
      | succ i =>
        simp only [List.getElem?_cons_succ]
        exact hpre i (by omega)
    · right
      refine ⟨by simp only [List.length_cons]; omega, fun i hi => ?_⟩
      cases i with
      | zero => simp [heq]
      | succ i =>
        simp only [List.getElem?_cons_succ]
        exact hpre i (by simp only [List.length_cons] at hi; omega)

theorem lexCompare_iff {α : Type} [LinearOrder α] (xs : List α) :
    ∀ ys : List α, lexCompare xs ys = true ↔ LexSmaller xs ys := by
  induction xs with
  | nil =>
    intro ys
    rw [LexSmaller_nil_left]
    cases ys with
    | nil => simp [lexCompare]
    | cons y ys => simp [lexCompare]
  | cons x xs ih =>
    intro ys
    cases ys with
    | nil =>
      simp only [lexCompare]
      exact ⟨fun h => absurd h (by simp), fun h => absurd h (LexSmaller_nil_right _)⟩
    | cons y ys =>
      rw [LexSmaller_cons]
      simp only [lexCompare]
      by_cases hxy : x < y
      · rw [if_pos hxy]
        exact ⟨fun _ => Or.inl hxy, fun _ => rfl⟩
      · rw [if_neg hxy]
        by_cases hyx : y < x
        · rw [if_pos hyx]
          constructor
          · intro h; exact absurd h (by simp)
          · rintro (h | ⟨h, -⟩)
            · exact absurd h hxy
            · rw [h] at hyx; exact absurd hyx (lt_irrefl y)
        · rw [if_neg hyx, ih ys]
          have heq : x = y := le_antisymm (not_lt.1 hyx) (not_lt.1 hxy)
          constructor
          · intro h; exact Or.inr ⟨heq, h⟩
          · rintro (h | ⟨-, h⟩)
            · exact absurd h hxy
            · exact h

theorem operator_lt_spec {α : Type} [LT α] [DecidableRel (fun x y : α => x < y)]
    (a b : SimpleVector α) (ha : a.size_ ≤ a.simple_vector_.length)
    (hb : b.size_ ≤ b.simple_vector_.length) :
    SimpleVector.operator_lt a b = some (lexCompare a.live b.live) := by
  unfold SimpleVector.operator_lt std_lexicographical_compare
  rw [if_neg (by omega), lexicographicalLoop_spec a.simple_vector_ b.simple_vector_ _ _ 0 0
    (by omega) (by omega)]
  simp only [Nat.sub_zero, List.drop_zero, SimpleVector.live]

/-- Over a linearly ordered element type, `a < b` is true exactly when the
live sequence of `a` is lexicographically smaller than the live sequence of
`b`: at the first index where they differ the element of `a` is smaller, or the
live sequence of `a` is a proper beginning of that of `b`.  The result is the
same for any two vectors with these live sequences, whatever their capacity and
the slots behind the size. -/
theorem operator_lt_iff {α : Type} [LinearOrder α] (a b : SimpleVector α)
    (ha : a.GetSize ≤ a.allocated) (hb : b.GetSize ≤ b.allocated) :
    ∃ r, SimpleVector.operator_lt a b = some r ∧
      (r = true ↔ LexSmaller a.live b.live) ∧
      (∀ a' b' : SimpleVector α, a'.GetSize ≤ a'.allocated → b'.GetSize ≤ b'.allocated →
        a'.live = a.live → b'.live = b.live → SimpleVector.operator_lt a' b' = some r) := by
  refine ⟨lexCompare a.live b.live, operator_lt_spec a b ha hb, lexCompare_iff _ _, ?_⟩
  intro a' b' ha' hb' hla hlb
  rw [operator_lt_spec a' b' ha' hb', hla, hlb]

/-- The comparison at vectors holding `1, 2, 3` (capacity 4), `1, 2, 3, 9` and
`1, 2, 4`. -/
theorem operator_lt_iff_witness :
    SimpleVector.operator_lt (SimpleVector.mk [1, 2, 3, (9 : Int)] 3 4)
        (SimpleVector.mk [1, 2, 3, 9] 4 4) = some true ∧
      SimpleVector.operator_lt (SimpleVector.mk [1, 2, 3, (9 : Int)] 4 4)
        (SimpleVector.mk [1, 2, 4] 3 3) = some true ∧
      SimpleVector.operator_lt (SimpleVector.mk [1, 2, (4 : Int)] 3 3)
        (SimpleVector.mk [1, 2, 3, 9] 4 4) = some false ∧
      SimpleVector.operator_lt (SimpleVector.mk [1, 2, (4 : Int)] 3 3)
        (SimpleVector.mk [1, 2, 4] 3 3) = some false ∧
      ∃ r, SimpleVector.operator_lt (SimpleVector.mk [1, 2, 3, (9 : Int)] 3 4)
          (SimpleVector.mk [1, 2, 3, 9] 4 4) = some r ∧
        (r = true ↔ LexSmaller (SimpleVector.mk [1, 2, 3, (9 : Int)] 3 4).live
          (SimpleVector.mk [1, 2, 3, (9 : Int)] 4 4).live) :=
  ⟨by decide, by decide, by decide, by decide,
    (operator_lt_iff (SimpleVector.mk [1, 2, 3, (9 : Int)] 3 4) (SimpleVector.mk [1, 2, 3, 9] 4 4)
      (by decide) (by decide)).elim fun r h => ⟨r, h.1, h.2.1⟩⟩

/-! ## The capacities PushBack goes through -/

theorem PushBack_doubling {α : Type} [Inhabited α] (v : SimpleVector α) (item : α)
    (hb : v.simple_vector_.length = v.capacity_) (hv : v.size_ ≤ v.capacity_)
    (hp : (v.size_ = 0 ∧ v.capacity_ = 0) ∨ ∃ k, v.capacity_ = 2 ^ k ∧ v.capacity_ < 2 * v.size_) :
    ∃ v', SimpleVector.PushBack v item = Outcome.ok () v' ∧ v'.size_ = v.size_ + 1 ∧
      v'.simple_vector_.length = v'.capacity_ ∧ v'.size_ ≤ v'.capacity_ ∧
      (∃ k, v'.capacity_ = 2 ^ k ∧ v'.capacity_ < 2 * v'.size_) ∧
      v'.capacity_ = (if v.size_ < v.capacity_ then v.capacity_
        else if v.capacity_ ≠ 0 then v.capacity_ * 2 else 1) := by
  obtain ⟨v', h, hs, -, hb', hv', hc⟩ := PushBack_spec v item hv hb
  refine ⟨v', h, hs, hb', hv', ?_, hc⟩
  rcases hp with ⟨h0, hc0⟩ | ⟨k, hk, hlt⟩
  · rw [if_neg (by omega), if_neg (by omega)] at hc
    exact ⟨0, by rw [hc]; rfl, by omega⟩
  · by_cases hroom : v.size_ < v.capacity_
    · rw [if_pos hroom] at hc
      exact ⟨k, by rw [hc, hk], by omega⟩
    · rw [if_neg hroom, if_pos (by omega)] at hc
      exact ⟨k + 1, by rw [hc, hk, Nat.pow_succ], by omega⟩

theorem pushAll_doubling {α : Type} [Inhabited α] (xs : List α) :
    ∀ v : SimpleVector α, v.simple_vector_.length = v.capacity_ → v.size_ ≤ v.capacity_ →
      ((v.size_ = 0 ∧ v.capacity_ = 0) ∨ ∃ k, v.capacity_ = 2 ^ k ∧ v.capacity_ < 2 * v.size_) →
      ∃ v', SimpleVector.pushAll v xs = Outcome.ok () v' ∧ v'.size_ = v.size_ + xs.length ∧
        v'.simple_vector_.length = v'.capacity_ ∧ v'.size_ ≤ v'.capacity_ ∧
        ((v'.size_ = 0 ∧ v'.capacity_ = 0) ∨
          ∃ k, v'.capacity_ = 2 ^ k ∧ v'.capacity_ < 2 * v'.size_) := by
  induction xs with
  | nil =>
    intro v hb hv hp
    exact ⟨v, rfl, rfl, hb, hv, hp⟩
  | cons x xs ih =>
    intro v hb hv hp
    obtain ⟨v1, h1, hs1, hb1, hv1, hp1, -⟩ := PushBack_doubling v x hb hv hp
    obtain ⟨v2, h2, hs2, hb2, hv2, hp2⟩ := ih v1 hb1 hv1 (Or.inr hp1)
    refine ⟨v2, ?_, ?_, hb2, hv2, hp2⟩
    · simp only [SimpleVector.pushAll, h1]
      exact h2
    · rw [hs2, hs1, List.length_cons]; omega

theorem pushAll_snoc {α : Type} [Inhabited α] (xs : List α) (x : α) :
    ∀ v v1 v2 : SimpleVector α, SimpleVector.pushAll v xs = Outcome.ok () v1 →
      SimpleVector.PushBack v1 x = Outcome.ok () v2 →
      SimpleVector.pushAll v (xs ++ [x]) = Outcome.ok () v2 := by
  induction xs with
  | nil =>
    intro v v1 v2 h1 h2
    simp only [SimpleVector.pushAll, Outcome.ok.injEq, true_and] at h1
    subst h1
    simp only [List.nil_append, SimpleVector.pushAll, h2]
  | cons y ys ih =>
    intro v v1 v2 h1 h2
    simp only [SimpleVector.pushAll] at h1
    simp only [List.cons_append, SimpleVector.pushAll]
    split at h1
    · rename_i u w hw
      exact ih w v1 v2 h1 h2
    · exact absurd h1 (by simp)
    · exact absurd h1 (by simp)
    · exact absurd h1 (by simp)

theorem smallest_power_of_lt_double (k n : Nat) (h1 : n ≤ 2 ^ k) (h2 : 2 ^ k < 2 * n) :
    IsSmallestPowerOfTwoAbove (2 ^ k) n := by
  refine ⟨k, rfl, h1, fun j hj => ?_⟩
  by_contra hlt
  have hjk : j < k := (Nat.pow_lt_pow_iff_right (by omega : 1 < 2)).1 (by omega)
  have hle : 2 ^ (j + 1) ≤ 2 ^ k := Nat.pow_le_pow_right (by omega) hjk
  rw [Nat.pow_succ] at hle
  omega

/-- C20: after `n >= 1` calls of `PushBack` on a default-constructed vector the
capacity is the smallest power of two that is at least `n`, so
`n <= capacity < 2n`; one more `PushBack` keeps the capacity while the size is
below it and exactly doubles it when the vector is full. -/
theorem PushBack_capacity_power_of_two {α : Type} [Inhabited α] (xs : List α)
    (hn : xs.length ≥ 1) :
    ∃ v : SimpleVector α, SimpleVector.pushAll SimpleVector.default_ctor xs = Outcome.ok () v ∧
      v.GetSize = xs.length ∧
      IsSmallestPowerOfTwoAbove v.GetCapacity xs.length ∧
      xs.length ≤ v.GetCapacity ∧ v.GetCapacity < 2 * xs.length ∧
      ∀ x : α, ∃ v', SimpleVector.PushBack v x = Outcome.ok () v' ∧
        SimpleVector.pushAll SimpleVector.default_ctor (xs ++ [x]) = Outcome.ok () v' ∧
        v'.GetCapacity = (if xs.length < v.GetCapacity then v.GetCapacity
          else 2 * v.GetCapacity) := by
  obtain ⟨v, h, hs, hb, hv, hp⟩ := pushAll_doubling xs (SimpleVector.default_ctor : SimpleVector α)
    rfl (le_refl _) (Or.inl ⟨rfl, rfl⟩)
  have hs' : v.size_ = xs.length := by
    rw [hs]; simp [SimpleVector.default_ctor]
  have hk : ∃ k, v.capacity_ = 2 ^ k ∧ v.capacity_ < 2 * v.size_ := by
    rcases hp with ⟨h0, -⟩ | hk
    · omega
    · exact hk
  obtain ⟨k, hk1, hk2⟩ := hk
  refine ⟨v, h, hs', ?_, by simp only [SimpleVector.GetCapacity]; omega,
    by simp only [SimpleVector.GetCapacity]; omega, fun x => ?_⟩
  · simp only [SimpleVector.GetCapacity]
    rw [hk1]
    exact smallest_power_of_lt_double k xs.length (by omega) (by omega)
  · obtain ⟨v', h', -, -, -, -, hc⟩ := PushBack_doubling v x hb hv (Or.inr ⟨k, hk1, hk2⟩)
    refine ⟨v', h', pushAll_snoc xs x _ v v' h h', ?_⟩
    simp only [SimpleVector.GetCapacity]
    rw [hc, hs']
    by_cases hroom : xs.length < v.capacity_
    · rw [if_pos hroom, if_pos hroom]
    · rw [if_neg hroom, if_neg hroom, if_pos (by omega)]
      omega

/-- C20 at five calls of `PushBack`: the capacity is 8. -/
theorem PushBack_capacity_power_of_two_witness :
    SimpleVector.pushAll SimpleVector.default_ctor [1, 2, 3, 4, (5 : Int)]
        = Outcome.ok () (SimpleVector.mk [1, 2, 3, 4, 5, 0, 0, 0] 5 8) ∧
      ∃ v : SimpleVector Int,
        SimpleVector.pushAll SimpleVector.default_ctor [1, 2, 3, 4, (5 : Int)] = Outcome.ok () v ∧
        v.GetSize = [1, 2, 3, 4, (5 : Int)].length ∧
        IsSmallestPowerOfTwoAbove v.GetCapacity [1, 2, 3, 4, (5 : Int)].length ∧
        [1, 2, 3, 4, (5 : Int)].length ≤ v.GetCapacity ∧
        v.GetCapacity < 2 * [1, 2, 3, 4, (5 : Int)].length :=
  ⟨by decide,
    (PushBack_capacity_power_of_two [1, 2, 3, 4, (5 : Int)] (by decide)).elim
      fun v h => ⟨v, h.1, h.2.1, h.2.2.1, h.2.2.2.1, h.2.2.2.2.1⟩⟩

/-- With the assertions compiled in, `Erase` returns exactly for the positions
in `[begin(), end())`. -/
theorem Erase_returns_iff {α : Type} (v : SimpleVector α) (pos : Int)
    (hb : v.GetSize ≤ v.allocated) :
    (∃ r v', SimpleVector.Erase v pos = Outcome.ok r v') ↔ (v.cbegin ≤ pos ∧ pos < v.cend) := by
  simp only [SimpleVector.cbegin, SimpleVector.cend]
  constructor
  · rintro ⟨r, v', h⟩
    unfold SimpleVector.Erase at h
    split_ifs at h with h1 h2
    simp only [SimpleVector.cbegin, SimpleVector.cend, not_not] at h1 h2
    simp only [ofOption_eq_ok, Option.bind_eq_bind, Option.bind_eq_some, Option.pure_def,
      Option.some.injEq] at h
    obtain ⟨⟨b, hmove, -⟩, -⟩ := h
    unfold std_move_within at hmove
    split_ifs at hmove with h3
    omega
  · rintro ⟨h1, h2⟩
    obtain ⟨v', h, -⟩ := Erase_spec v pos.toNat (by omega) hb
    rw [Int.toNat_of_nonneg h1] at h
    exact ⟨pos, v', h⟩

/-! ## The lexicographic comparison for an arbitrary `<` -/

theorem LexSmallerByOrder_nil_left {α : Type} [LT α] (ys : List α) :
    LexSmallerByOrder ([] : List α) ys ↔ ys ≠ [] := by
  unfold LexSmallerByOrder
  constructor
  · rintro (⟨k, x, y, hx, -⟩ | ⟨hlen, -⟩)
    · simp at hx
    · intro h
      rw [h] at hlen
      simp at hlen
  · intro h
    right
    refine ⟨?_, fun i hi => ?_⟩
    · cases ys with
      | nil => exact absurd rfl h
      | cons y ys => simp
    · simp at hi

theorem LexSmallerByOrder_nil_right {α : Type} [LT α] (xs : List α) :
    ¬ LexSmallerByOrder xs ([] : List α) := by
  unfold LexSmallerByOrder
  rintro (⟨k, x, y, -, hy, -⟩ | ⟨hlen, -⟩)
  · simp at hy
  · simp at hlen

theorem LexSmallerByOrder_cons {α : Type} [LT α] (x y : α) (xs ys : List α) :
    LexSmallerByOrder (x :: xs) (y :: ys)
      ↔ x < y ∨ (¬ x < y ∧ ¬ y < x ∧ LexSmallerByOrder xs ys) := by
  unfold LexSmallerByOrder
  constructor
  · rintro (⟨k, x', y', hx, hy, hlt, hpre⟩ | ⟨hlen, hpre⟩)
    · cases k with
      | zero =>
        simp only [List.getElem?_cons_zero, Option.some.injEq] at hx hy
        left
        rw [hx, hy]
        exact hlt
      | succ k =>
        simp only [List.getElem?_cons_succ] at hx hy
        obtain ⟨u, w, hu, hw, h1, h2⟩ := hpre 0 (Nat.succ_pos k)
        simp only [List.getElem?_cons_zero, Option.some.injEq] at hu hw
        subst hu hw
        right
        refine ⟨h1, h2, Or.inl ⟨k, x', y', hx, hy, hlt, fun i hi => ?_⟩⟩
        have := hpre (i + 1) (by omega)
        simpa only [List.getElem?_cons_succ] using this
    · obtain ⟨u, w, hu, hw, h1, h2⟩ := hpre 0 (by simp)
      simp only [List.getElem?_cons_zero, Option.some.injEq] at hu hw
      subst hu hw
      right
      refine ⟨h1, h2, Or.inr ⟨?_, fun i hi => ?_⟩⟩
      · simp only [List.length_cons] at hlen
        omega
      · have := hpre (i + 1) (by simp only [List.length_cons]; omega)
        simpa only [List.getElem?_cons_succ] using this
  · rintro (hlt | ⟨h1, h2, ⟨k, x', y', hx, hy, hlt, hpre⟩ | ⟨hlen, hpre⟩⟩)
    · left
      exact ⟨0, x, y, by simp, by simp, hlt, fun i hi => absurd hi (by omega)⟩
    · left
      refine ⟨k + 1, x', y', by simpa using hx, by simpa using hy, hlt, fun i hi => ?_⟩
      cases i with
      | zero => exact ⟨x, y, by simp, by simp, h1, h2⟩
      | succ i =>
        simp only [List.getElem?_cons_succ]
        exact hpre i (by omega)
    · right
      refine ⟨by simp only [List.length_cons]; omega, fun i hi => ?_⟩
      cases i with
      | zero => exact ⟨x, y, by simp, by simp, h1, h2⟩
      | succ i =>
        simp only [List.getElem?_cons_succ]
        exact hpre i (by simp only [List.length_cons] at hi; omega)

theorem lexCompare_iff_byOrder {α : Type} [LT α] [DecidableRel (fun x y : α => x < y)]
    (xs : List α) : ∀ ys : List α, lexCompare xs ys = true ↔ LexSmallerByOrder xs ys := by
  induction xs with
  | nil =>
    intro ys
    rw [LexSmallerByOrder_nil_left]
    cases ys with
    | nil => simp [lexCompare]
    | cons y ys => simp [lexCompare]
  | cons x xs ih =>
    intro ys
    cases ys with
    | nil =>
      simp only [lexCompare]
      exact ⟨fun h => absurd h (by simp), fun h => absurd h (LexSmallerByOrder_nil_right _)⟩
    | cons y ys =>
      rw [LexSmallerByOrder_cons]
      simp only [lexCompare]
      by_cases hxy : x < y
      · rw [if_pos hxy]
        exact ⟨fun _ => Or.inl hxy, fun _ => rfl⟩
      · rw [if_neg hxy]
        by_cases hyx : y < x
        · rw [if_pos hyx]
          constructor
          · intro h; exact absurd h (by simp)
          · rintro (h | ⟨-, h, -⟩)
            · exact absurd h hxy
            · exact absurd hyx h
        · rw [if_neg hyx, ih ys]
          constructor
          · intro h; exact Or.inr ⟨hxy, hyx, h⟩
          · rintro (h | ⟨-, -, h⟩)
            · exact absurd h hxy
            · exact h

theorem LexSmaller_cons_of_irrefl {α : Type} [LT α] (hirr : ∀ x : α, ¬ x < x) (x y : α)
    (xs ys : List α) :
    LexSmaller (x :: xs) (y :: ys) ↔ x < y ∨ (x = y ∧ LexSmaller xs ys) := by
  unfold LexSmaller
  constructor
  · rintro (⟨k, x', y', hx, hy, hne, hlt, hpre⟩ | ⟨hlen, hpre⟩)
    · cases k with
      | zero =>
        simp only [List.getElem?_cons_zero, Option.some.injEq] at hx hy
        left
        rw [hx, hy]
        exact hlt
      | succ k =>
        simp only [List.getElem?_cons_succ] at hx hy
        have h0 := hpre 0 (Nat.succ_pos k)
        simp only [List.getElem?_cons_zero, Option.some.injEq] at h0
        right
        refine ⟨h0, Or.inl ⟨k, x', y', hx, hy, hne, hlt, fun i hi => ?_⟩⟩
        have := hpre (i + 1) (by omega)
        simpa only [List.getElem?_cons_succ] using this
    · have h0 := hpre 0 (by simp)
      simp only [List.getElem?_cons_zero, Option.some.injEq] at h0
      right
      refine ⟨h0, Or.inr ⟨?_, fun i hi => ?_⟩⟩
      · simp only [List.length_cons] at hlen
        omega
      · have := hpre (i + 1) (by simp only [List.length_cons]; omega)
        simpa only [List.getElem?_cons_succ] using this
  · rintro (hlt | ⟨heq, ⟨k, x', y', hx, hy, hne, hlt, hpre⟩ | ⟨hlen, hpre⟩⟩)
    · left
      refine ⟨0, x, y, by simp, by simp, ?_, hlt, fun i hi => absurd hi (by omega)⟩
      intro h
      rw [h] at hlt
      exact hirr y hlt
    · left
      refine ⟨k + 1, x', y', by simpa using hx, by simpa using hy, hne, hlt, fun i hi => ?_⟩
      cases i with
      | zero => simp [heq]
      | succ i =>
        simp only [List.getElem?_cons_succ]
        exact hpre i (by omega)
    · right
      refine ⟨by simp only [List.length_cons]; omega, fun i hi => ?_⟩
      cases i with
      | zero => simp [heq]
      | succ i =>
        simp only [List.getElem?_cons_succ]
        exact hpre i (by simp only [List.length_cons] at hi; omega)

theorem lexCompare_iff_of_total {α : Type} [LT α] [DecidableRel (fun x y : α => x < y)]
    (hirr : ∀ x : α, ¬ x < x) (htot : ∀ x y : α, ¬ x < y → ¬ y < x → x = y) (xs : List α) :
    ∀ ys : List α, lexCompare xs ys = true ↔ LexSmaller xs ys := by
  induction xs with
  | nil =>
    intro ys
    rw [LexSmaller_nil_left]
    cases ys with
    | nil => simp [lexCompare]
    | cons y ys => simp [lexCompare]
  | cons x xs ih =>
    intro ys
    cases ys with
    | nil =>
      simp only [lexCompare]
      exact ⟨fun h => absurd h (by simp), fun h => absurd h (LexSmaller_nil_right _)⟩
    | cons y ys =>
      rw [LexSmaller_cons_of_irrefl hirr]
      simp only [lexCompare]
      by_cases hxy : x < y
      · rw [if_pos hxy]
        exact ⟨fun _ => Or.inl hxy, fun _ => rfl⟩
      · rw [if_neg hxy]
        by_cases hyx : y < x
        · rw [if_pos hyx]
          constructor
          · intro h; exact absurd h (by simp)
          · rintro (h | ⟨h, -⟩)
            · exact absurd h hxy
            · rw [h] at hyx; exact absurd hyx (hirr y)
        · rw [if_neg hyx, ih ys]
          have heq : x = y := htot x y hxy hyx
          constructor
          · intro h; exact Or.inr ⟨heq, h⟩
          · rintro (h | ⟨-, h⟩)
            · exact absurd h hxy
            · exact h

/-- C18, amended: for every element type with a decidable `<`, `a < b` is true
exactly when, at the first index where one of the two elements is smaller than
the other, the element of `a` is the smaller one, or the live sequence of `a`
has no such index and is shorter than that of `b`.  When `<` is irreflexive and
any two different elements are ordered, this is: at the first index where the
live sequences differ the element of `a` is smaller, or the live sequence of
`a` is a proper beginning of that of `b`.  The result is the same for any two
vectors with these live sequences, whatever their capacity and the slots behind
the size. -/
theorem operator_lt_lexicographic {α : Type} [LT α] [DecidableRel (fun x y : α => x < y)]
    (a b : SimpleVector α) (ha : a.GetSize ≤ a.allocated) (hb : b.GetSize ≤ b.allocated) :
    ∃ r, SimpleVector.operator_lt a b = some r ∧
      (r = true ↔ LexSmallerByOrder a.live b.live) ∧
      ((∀ x : α, ¬ x < x) → (∀ x y : α, ¬ x < y → ¬ y < x → x = y) →
        (r = true ↔ LexSmaller a.live b.live)) ∧
      (∀ a' b' : SimpleVector α, a'.GetSize ≤ a'.allocated → b'.GetSize ≤ b'.allocated →
        a'.live = a.live → b'.live = b.live → SimpleVector.operator_lt a' b' = some r) := by
  refine ⟨lexCompare a.live b.live, operator_lt_spec a b ha hb, lexCompare_iff_byOrder _ _,
    fun hirr htot => lexCompare_iff_of_total hirr htot _ _, ?_⟩
  intro a' b' ha' hb' hla hlb
  rw [operator_lt_spec a' b' ha' hb', hla, hlb]

/-- C18, amended, at the vectors holding `1, 2, 3` (capacity 4) and
`1, 2, 3, 9` over `Int`, whose `<` is irreflexive and total. -/
theorem operator_lt_lexicographic_witness :
    (SimpleVector.mk [1, 2, 3, (9 : Int)] 3 4).GetSize
        ≤ (SimpleVector.mk [1, 2, 3, (9 : Int)] 3 4).allocated ∧
      (SimpleVector.mk [1, 2, 3, (9 : Int)] 4 4).GetSize
        ≤ (SimpleVector.mk [1, 2, 3, (9 : Int)] 4 4).allocated ∧
      SimpleVector.operator_lt (SimpleVector.mk [1, 2, 3, (9 : Int)] 3 4)
        (SimpleVector.mk [1, 2, 3, 9] 4 4) = some true ∧
      ∃ r, SimpleVector.operator_lt (SimpleVector.mk [1, 2, 3, (9 : Int)] 3 4)
          (SimpleVector.mk [1, 2, 3, 9] 4 4) = some r ∧
        (r = true ↔ LexSmallerByOrder (SimpleVector.mk [1, 2, 3, (9 : Int)] 3 4).live
          (SimpleVector.mk [1, 2, 3, (9 : Int)] 4 4).live) ∧
        (r = true ↔ LexSmaller (SimpleVector.mk [1, 2, 3, (9 : Int)] 3 4).live
          (SimpleVector.mk [1, 2, 3, (9 : Int)] 4 4).live) :=
  ⟨by decide, by decide, by decide,
    (operator_lt_lexicographic (SimpleVector.mk [1, 2, 3, (9 : Int)] 3 4)
      (SimpleVector.mk [1, 2, 3, 9] 4 4) (by decide) (by decide)).elim
      fun r h => ⟨r, h.1, h.2.1,
        h.2.2.1 (fun x => lt_irrefl x) (fun x y h1 h2 => le_antisymm (not_lt.1 h2) (not_lt.1 h1))⟩⟩

/-- C18 as stated fails for a strict order that is not total.  The `<` of
`NanNat` is irreflexive and transitive; on the vectors holding `nan, 1` and
`7, 2` the loop finds neither element smaller at index 0, goes on and returns
true at index 1, although the sequences differ first at index 0, where the
element of the left vector is not the smaller one, and neither is a proper
beginning of the other. -/
theorem operator_lt_not_first_difference :
    (∀ x : NanNat, ¬ x < x) ∧
      (∀ x y z : NanNat, x < y → y < z → x < z) ∧
      SimpleVector.operator_lt (SimpleVector.mk [NanNat.nan, NanNat.num 1] 2 2)
        (SimpleVector.mk [NanNat.num 7, NanNat.num 2] 2 2) = some true ∧
      ¬ LexSmaller (SimpleVector.mk [NanNat.nan, NanNat.num 1] 2 2).live
        (SimpleVector.mk [NanNat.num 7, NanNat.num 2] 2 2).live := by
  refine ⟨?_, ?_, by decide, ?_⟩
  · intro x
    cases x with
    | nan => exact fun h => absurd h (by decide)
    | num n =>
      show ¬ (NanNat.less (NanNat.num n) (NanNat.num n) = true)
      simp [NanNat.less]
  · intro x y z hxy hyz
    have hxy' : NanNat.less x y = true := hxy
    have hyz' : NanNat.less y z = true := hyz
    show NanNat.less x z = true
    cases x <;> cases y <;> cases z <;>
      simp only [NanNat.less, decide_eq_true_eq, Bool.false_eq_true] at hxy' hyz' ⊢
    omega
  · show ¬ LexSmaller [NanNat.nan, NanNat.num 1] [NanNat.num 7, NanNat.num 2]
    unfold LexSmaller
    rintro (⟨k, x, y, hx, hy, -, hlt, hpre⟩ | ⟨hlen, -⟩)
    · cases k with
      | zero =>
        simp only [List.getElem?_cons_zero, Option.some.injEq] at hx hy
        subst hx hy
        exact absurd hlt (by decide)
      | succ k =>
        have h0 := hpre 0 (Nat.succ_pos k)
        simp only [List.getElem?_cons_zero, Option.some.injEq] at h0
        exact absurd h0 (by decide)
    · simp at hlen

end SimpleVectorSpec
